import Mathlib

/-!
Verification development for the Engram episodic memory store.

The JavaScript sources are shallowly embedded: JS Map objects become
association lists whose operations mirror Map semantics (insertion order,
update-in-place), JS numbers that only ever hold integers become Int or Nat,
JS float arithmetic in scoring becomes rational arithmetic, and the JS
runtime builtins that the repository does not define (Math.exp, Math.log,
Math.pow, the ChaCha20-Poly1305 AEAD of node crypto) are modelled where
noted.  Fallible or nonterminating code returns Option or Except; sources of
nondeterminism (Date.now, randomBytes) become explicit parameters.
-/

namespace Engram

/-- A JS number that may be NaN.  df counters in the query engine are read
back with `get` and can in principle be undefined; arithmetic on undefined
produces NaN in JS, which this type makes representable. -/
inductive JsNum where
  | num (n : Int)
  | nan
deriving DecidableEq, Repr

/-- JS expression `x || 0` applied to a possibly-undefined, possibly-NaN map
read: undefined and NaN (and 0 itself) are falsy and give 0. -/
def jsOr0 : Option JsNum → Int
  | some (.num n) => n
  | _ => 0

/-- JS comparison `c <= 1` where c came from Map.get: undefined and NaN
compare false. -/
def jsLe1 : Option JsNum → Bool
  | some (.num n) => n ≤ 1
  | _ => false

/-- JS expression `c - 1` where c came from Map.get: undefined and NaN give
NaN. -/
def jsSub1 : Option JsNum → JsNum
  | some (.num n) => .num (n - 1)
  | _ => .nan

/-- JS Map.get: first entry with the key (entries are kept unique, matching
Map). -/
def jsGet {α β : Type} [DecidableEq α] : List (α × β) → α → Option β
  | [], _ => none
  | p :: t, k => if p.1 = k then some p.2 else jsGet t k

/-- JS Map.get with a default (for the `m.get(k) || 0` pattern on Nat-valued
maps that never hold 0). -/
def jsGetD {α β : Type} [DecidableEq α] (m : List (α × β)) (k : α) (d : β) : β :=
  (jsGet m k).getD d

/-- JS Map.set: update in place if present, else append (Map preserves
insertion order). -/
def jsSet {α β : Type} [DecidableEq α] : List (α × β) → α → β → List (α × β)
  | [], k, v => [(k, v)]
  | p :: t, k, v => if p.1 = k then (k, v) :: t else p :: jsSet t k v

/-- JS Map.delete: remove the entry with the key. -/
def jsDelete {α β : Type} [DecidableEq α] : List (α × β) → α → List (α × β)
  | [], _ => []
  | p :: t, k => if p.1 = k then t else p :: jsDelete t k

/-- JS Map.keys as a list. -/
def jsKeys {α β : Type} (m : List (α × β)) : List α := m.map (·.1)

/-- Whitespace characters matched by the JS regex class backslash-s (ASCII
part; astral white space is immaterial here because every character kept by
the tokenizer filter is ASCII). -/
def jsWs (c : Char) : Prop :=
  c = ' ' ∨ c = '\t' ∨ c = '\n' ∨ c = '\r' ∨ c = '\x0b' ∨ c = '\x0c'

instance (c : Char) : Decidable (jsWs c) := by unfold jsWs; infer_instance

/-- Scanner for JS String.split on a whitespace run: cur is the reversed
piece being built, the flag records whether the previous character was part
of a separator run. -/
def jsSplitWsGo : List Char → List Char → Bool → List (List Char)
  | [], cur, _ => [cur.reverse]
  | c :: t, cur, inWs =>
    if jsWs c then
      if inWs then jsSplitWsGo t [] true
      else cur.reverse :: jsSplitWsGo t [] true
    else jsSplitWsGo t (c :: cur) false

/-- JS String.split on a whitespace run, including the empty pieces JS
produces at the ends when the string starts or ends with white space. -/
def jsSplitWs (cs : List Char) : List (List Char) := jsSplitWsGo cs [] false

/-! Embedding of src/core.js: tokenizer, chunker, BM25 math, episode
construction. -/

/-- STOP_WORDS of src/core.js, in source order. -/
def stopWords : List (List Char) :=
  (["the", "a", "an", "is", "are", "was", "were", "be", "been", "being", "have",
    "has", "had", "do", "does", "did", "will", "would", "shall", "should",
    "may", "might", "must", "can", "could", "i", "me", "my", "we", "our",
    "you", "your", "he", "him", "his", "she", "her", "it", "its", "they",
    "them", "their", "this", "that", "these", "those", "am", "in", "on", "at",
    "to", "for", "of", "with", "by", "from", "as", "into", "through",
    "during", "before", "after", "above", "below", "between", "and", "but",
    "or", "nor", "not", "no", "so", "if", "then", "than", "too", "very",
    "just", "about", "up", "out", "off", "over", "under", "again", "further",
    "once"] : List String).map String.data

/-- stemLight of src/core.js: order-sensitive lightweight suffix stripping,
first matching branch wins.  A word is a list of characters; slice with a
negative index becomes take of length minus the suffix length. -/
def stemLight (w : List Char) : List Char :=
  if w.length ≤ 3 then w
  else if decide ("ies".data <:+ w) && decide (w.length > 4) then w.take (w.length - 3) ++ ['y']
  else if decide ("ing".data <:+ w) && decide (w.length > 5) then w.take (w.length - 3)
  else if decide ("tion".data <:+ w) && decide (w.length > 5) then w.take (w.length - 4)
  else if decide ("ment".data <:+ w) && decide (w.length > 5) then w.take (w.length - 4)
  else if decide ("ness".data <:+ w) && decide (w.length > 5) then w.take (w.length - 4)
  else if decide ("ful".data <:+ w) && decide (w.length > 4) then w.take (w.length - 3)
  else if decide ("less".data <:+ w) && decide (w.length > 5) then w.take (w.length - 4)
  else if decide ("able".data <:+ w) && decide (w.length > 5) then w.take (w.length - 4)
  else if decide ("ible".data <:+ w) && decide (w.length > 5) then w.take (w.length - 4)
  else if decide ("ed".data <:+ w) && decide (w.length > 4) then w.take (w.length - 2)
  else if decide ("ly".data <:+ w) && decide (w.length > 4) then w.take (w.length - 2)
  else if decide ("er".data <:+ w) && decide (w.length > 4) then w.take (w.length - 2)
  else if decide ("est".data <:+ w) && decide (w.length > 4) then w.take (w.length - 3)
  else if decide ("s".data <:+ w) && ! decide ("ss".data <:+ w) && decide (w.length > 3) then
    w.take (w.length - 1)
  else w

/-- Characters kept by the tokenizer regex replace: the class a-z, 0-9,
backslash-s, underscore and hyphen; everything else becomes a space. -/
def keptChar (c : Char) : Prop :=
  ('a' ≤ c ∧ c ≤ 'z') ∨ ('0' ≤ c ∧ c ≤ '9') ∨ c = '_' ∨ c = '-' ∨ jsWs c

instance (c : Char) : Decidable (keptChar c) := by unfold keptChar; infer_instance

/-- tokenize of src/core.js.  JS String.toLowerCase is modelled per character
by Char.toLower; every character this embedding and JS disagree on (special
Unicode casings) is replaced by a space in both pipelines before splitting,
since it is outside the kept class either way. -/
def tokenize (text : List Char) : List (List Char) :=
  let lowered := text.map Char.toLower
  let replaced := lowered.map fun c => if keptChar c then c else ' '
  let words := (jsSplitWs replaced).filter (· ≠ [])
  (words.filter fun w => ¬ w ∈ stopWords ∧ w.length > 1).map stemLight

/-- termFrequencies of src/core.js: fold the token list into a Map of
counts. -/
def termFrequencies (tokens : List (List Char)) : List (List Char × Nat) :=
  tokens.foldl (fun tf t => jsSet tf t (jsGetD tf t 0 + 1)) []

/-- JS Array.prototype.slice with possibly negative indices. -/
def jsSlice {α : Type} (l : List α) (start stop : Int) : List α :=
  let len : Int := l.length
  let s := if start < 0 then max (len + start) 0 else min start len
  let e := if stop < 0 then max (len + stop) 0 else min stop len
  (l.drop s.toNat).take (e - s).toNat

/-- JS Array.prototype.join with a single space. -/
def joinWords (ws : List (List Char)) : List Char := (ws.intersperse [' ']).flatten

/-- The chunker loop for mode fixed of src/core.js: slices of maxTokens
words advancing by maxTokens - overlap, with explicit gas because the JS
loop does not terminate when the step is not positive.  Index and step are
Int exactly as JS numbers. -/
def chunkFixedGas (tokens : List (List Char)) (maxTokens overlap : Int) :
    Nat → Int → Option (List (List Char))
  | 0, _ => none
  | gas + 1, i =>
    if i < (tokens.length : Int) then
      match chunkFixedGas tokens maxTokens overlap gas (i + (maxTokens - overlap)) with
      | none => none
      | some rest => some (joinWords (jsSlice tokens i (i + maxTokens)) :: rest)
    else some []

/-- Sentence terminator class of the chunker regex: period, bang, question
mark, newline. -/
def termChar (c : Char) : Prop := c = '.' ∨ c = '!' ∨ c = '?' ∨ c = '\n'

instance (c : Char) : Decidable (termChar c) := by unfold termChar; infer_instance

/-- Scanner for the global match of the sentence regex: acc is the reversed
match being built (body characters then terminators), the flag records
whether the scanner is inside the terminator tail of the current match;
characters before the first sentence body are skipped, as the regex engine
does. -/
def sentencesGo : List Char → List Char → Bool → List (List Char)
  | [], acc, _ => if acc = [] then [] else [acc.reverse]
  | c :: t, acc, inTerms =>
    if termChar c then
      if acc = [] then sentencesGo t [] false
      else sentencesGo t (c :: acc) true
    else
      if inTerms then acc.reverse :: sentencesGo t [c] false
      else sentencesGo t (c :: acc) false

/-- Global match of the sentence regex: maximal runs of non-terminators
followed by a possibly empty run of terminators. -/
def sentencesOf (cs : List Char) : List (List Char) := sentencesGo cs [] false

/-- JS String.prototype.trim. -/
def jsTrim (l : List Char) : List Char :=
  ((l.dropWhile fun c => decide (jsWs c)).reverse.dropWhile fun c => decide (jsWs c)).reverse

/-- The sentence branch of chunk in src/core.js: greedy accumulation of
sentences until the token count of the accumulated chunk would exceed
maxTokens. -/
def chunkSentence (text : List Char) (maxTokens : Int) : List (List Char) :=
  let sentences := match sentencesOf text with
    | [] => [text]
    | l => l
  let step := fun (st : List (List Char) × List Char) (s : List Char) =>
    if ((tokenize (st.2 ++ s)).length : Int) > maxTokens ∧ st.2 ≠ [] then
      (st.1 ++ [jsTrim st.2], s)
    else (st.1, st.2 ++ s)
  let fin := sentences.foldl step ([], [])
  if jsTrim fin.2 ≠ [] then fin.1 ++ [jsTrim fin.2] else fin.1

/-- Length of takeWhile drops below the list length as soon as one element
fails the predicate. -/
theorem takeWhile_length_lt {α : Type} (p : α → Bool) (l : List α)
    (h : ∃ x ∈ l, ¬ p x = true) : (l.takeWhile p).length < l.length := by
  induction l with
  | nil => simp at h
  | cons a t ih =>
    by_cases hp : p a = true
    · rw [List.takeWhile_cons_of_pos hp]
      rcases h with ⟨x, hx, hpx⟩
      rcases List.mem_cons.mp hx with rfl | hxt
      · exact absurd hp hpx
      · have := ih ⟨x, hxt, hpx⟩
        simp only [List.length_cons]
        omega
    · rw [List.takeWhile_cons_of_neg (by simpa using hp)]
      simp

/-- Split on the blank-line regex of the paragraph chunker: a newline, a
greedy run of white space that must end with another newline (trailing
white space after the last newline of the run stays with the next piece,
matching regex backtracking). -/
def paraSplit : List Char → List Char → List (List Char)
  | [], cur => [cur.reverse]
  | c :: t, cur =>
    if c = '\n' then
      if hn : '\n' ∈ t.takeWhile (fun c2 => decide (jsWs c2)) then
        cur.reverse :: paraSplit
          ((((t.takeWhile (fun c2 => decide (jsWs c2))).reverse.takeWhile
              (fun c2 => decide (c2 ≠ '\n'))).reverse)
            ++ t.drop (t.takeWhile (fun c2 => decide (jsWs c2))).length) []
      else paraSplit t (c :: cur)
    else paraSplit t (c :: cur)
termination_by cs _ => cs.length
decreasing_by
  · have hrun : (t.takeWhile (fun c2 => decide (jsWs c2))).length ≤ t.length :=
      (List.takeWhile_sublist _).length_le
    have hk : (((t.takeWhile (fun c2 => decide (jsWs c2))).reverse.takeWhile
        (fun c2 => decide (c2 ≠ '\n'))).reverse).length
        < (t.takeWhile (fun c2 => decide (jsWs c2))).length := by
      have h2 := takeWhile_length_lt (fun c2 => decide (c2 ≠ '\n'))
        (t.takeWhile (fun c2 => decide (jsWs c2))).reverse
        ⟨'\n', List.mem_reverse.mpr hn, by simp⟩
      simpa using h2
    have hd : (t.drop (t.takeWhile (fun c2 => decide (jsWs c2))).length).length
        = t.length - (t.takeWhile (fun c2 => decide (jsWs c2))).length :=
      List.length_drop _ _
    simp only [List.length_append, List.length_cons, List.length_reverse, hd]
    simp only [List.length_reverse] at hk
    omega
  · simp
  · simp

/-- Options of chunk in src/core.js. -/
structure ChunkOpts where
  mode : String := "sentence"
  maxTokens : Int := 256
  overlap : Int := 32
deriving Repr

/-- chunk of src/core.js.  The fixed mode returns none exactly when its
sliding-window loop does not terminate (the gas bound is proved sufficient
for every terminating configuration in the C10 theorem). -/
def chunk (text : List Char) (opts : ChunkOpts) : Option (List (List Char)) :=
  if opts.mode = "paragraph" then
    let paras := ((paraSplit text []).map jsTrim).filter (· ≠ [])
    some (if paras ≠ [] then paras else [text])
  else if opts.mode = "sentence" then some (chunkSentence text opts.maxTokens)
  else
    let tokens := jsSplitWs text
    chunkFixedGas tokens opts.maxTokens opts.overlap (tokens.length + 1) 0

/-! Scoring math of src/core.js.  Math.log, Math.exp and Math.pow are JS
runtime builtins the repository does not define; they are modelled from the
spec as fixed rational approximations of the transcendental functions (a
truncated series).  No theorem below depends on their values, only on the
surrounding score algebra; Math.pow with exponent 0 is 1 exactly as in JS. -/

def mathExp (x : ℚ) : ℚ := 1 + x + x ^ 2 / 2 + x ^ 3 / 6 + x ^ 4 / 24

def mathLog (x : ℚ) : ℚ :=
  (x - 1) - (x - 1) ^ 2 / 2 + (x - 1) ^ 3 / 3 - (x - 1) ^ 4 / 4

def mathPow (b e : ℚ) : ℚ := if e = 0 then 1 else mathExp (e * mathLog b)

/-- BM25 constant k1 = 1.2. -/
def K1 : ℚ := 12 / 10

/-- BM25 constant b = 0.75. -/
def B : ℚ := 3 / 4

/-- idf of src/core.js. -/
def idf (df N : ℚ) : ℚ := mathLog (1 + (N - df + 1 / 2) / (df + 1 / 2))

/-- bm25Score of src/core.js. -/
def bm25Score (tf dl avgdl termIdf : ℚ) : ℚ :=
  termIdf * (tf * (K1 + 1)) / (tf + K1 * (1 - B + B * dl / avgdl))

/-! Episodes.  generateEpisodeId draws on Date.now and randomBytes; the
generated id is therefore an explicit parameter wherever an episode is
created. -/

structure Episode where
  id : String
  text : List Char
  type : String := "fact"
  tags : List String := []
  importance : ℚ := 1 / 2
  agentId : String := "default"
  chunkIndex : Nat := 0
  totalChunks : Nat := 1
  sourceId : Option String := none
  createdAt : Int
  lastAccessedAt : Int
  accessCount : Nat := 0
  tokens : List (List Char)
  supersedes : Option (List String) := none
  supersededBy : Option (List String) := none
  encrypted : Bool := false
  tagsEncrypted : Bool := false
deriving DecidableEq, Repr

/-- Options of createEpisode in src/core.js. -/
structure EpisodeOpts where
  type : String := "fact"
  tags : List String := []
  importance : ℚ := 1 / 2
  agentId : String := "default"
  chunkIndex : Nat := 0
  totalChunks : Nat := 1
  sourceId : Option String := none
  supersedes : Option (List String) := none
deriving Repr

/-- createEpisode of src/core.js: the supersedes field is attached only when
the option is a nonempty array. -/
def createEpisode (text : List Char) (opts : EpisodeOpts) (now : Int)
    (id : String) : Episode :=
  { id := id, text := text, type := opts.type, tags := opts.tags,
    importance := opts.importance, agentId := opts.agentId,
    chunkIndex := opts.chunkIndex, totalChunks := opts.totalChunks,
    sourceId := opts.sourceId, createdAt := now, lastAccessedAt := now,
    accessCount := 0, tokens := tokenize text,
    supersedes := match opts.supersedes with
      | some l => if l ≠ [] then some l else none
      | none => none }

/-! SHA-256, as used by node crypto createHash in scripts/anchor.js and for
sourceId in core.js.  Bytes are Nat below 256, words are Nat reduced mod
2 to the 32 at every operation.  This is the full FIPS 180-4 function so
that Merkle counterexamples evaluate the same digests the code computes. -/

/-- Bytes are lists of Nat; each entry is a value below 256. -/
abbrev Bytes := List Nat

/-- Rotate a 32-bit word right. -/
def rotr (x n : Nat) : Nat := ((x >>> n) ||| (x <<< (32 - n))) % 4294967296

def smallSigma0 (x : Nat) : Nat := rotr x 7 ^^^ rotr x 18 ^^^ (x >>> 3)

def smallSigma1 (x : Nat) : Nat := rotr x 17 ^^^ rotr x 19 ^^^ (x >>> 10)

def bigSigma0 (x : Nat) : Nat := rotr x 2 ^^^ rotr x 13 ^^^ rotr x 22

def bigSigma1 (x : Nat) : Nat := rotr x 6 ^^^ rotr x 11 ^^^ rotr x 25

/-- Round constants. -/
def sha256K : List Nat :=
  [1116352408, 1899447441, 3049323471, 3921009573, 961987163, 1508970993,
   2453635748, 2870763221, 3624381080, 310598401, 607225278, 1426881987,
   1925078388, 2162078206, 2614888103, 3248222580, 3835390401, 4022224774,
   264347078, 604807628, 770255983, 1249150122, 1555081692, 1996064986,
   2554220882, 2821834349, 2952996808, 3210313671, 3336571891, 3584528711,
   113926993, 338241895, 666307205, 773529912, 1294757372, 1396182291,
   1695183700, 1986661051, 2177026350, 2456956037, 2730485921, 2820302411,
   3259730800, 3345764771, 3516065817, 3600352804, 4094571909, 275423344,
   430227734, 506948616, 659060556, 883997877, 958139571, 1322822218,
   1537002063, 1747873779, 1955562222, 2024104815, 2227730452, 2361852424,
   2428436474, 2756734187, 3204031479, 3329325298]

/-- Initial hash state. -/
def sha256H0 : List Nat :=
  [1779033703, 3144134277, 1013904242, 2773480762,
   1359893119, 2600822924, 528734635, 1541459225]

/-- Big-endian serialization of a 32-bit word. -/
def be32 (n : Nat) : Bytes :=
  [n / 2 ^ 24 % 256, n / 2 ^ 16 % 256, n / 2 ^ 8 % 256, n % 256]

/-- Big-endian serialization of a 64-bit length. -/
def be64 (n : Nat) : Bytes :=
  [n / 2 ^ 56 % 256, n / 2 ^ 48 % 256, n / 2 ^ 40 % 256, n / 2 ^ 32 % 256,
   n / 2 ^ 24 % 256, n / 2 ^ 16 % 256, n / 2 ^ 8 % 256, n % 256]

/-- Merkle-Damgard padding to a multiple of 64 bytes. -/
def sha256Pad (msg : Bytes) : Bytes :=
  msg ++ 128 :: List.replicate ((64 - (msg.length + 9) % 64) % 64) 0
    ++ be64 (8 * msg.length)

/-- Split a byte list into 64-byte blocks; the fuel is an upper bound on the
block count (one unit is spent per block, and the padded message is never
empty). -/
def toBlocksGo : Nat → Bytes → List Bytes
  | _, [] => []
  | 0, _ :: _ => []
  | fuel + 1, c :: t => ((c :: t).take 64) :: toBlocksGo fuel ((c :: t).drop 64)

/-- Split a padded message into 64-byte blocks. -/
def toBlocks (l : Bytes) : List Bytes := toBlocksGo l.length l

/-- The 16 big-endian words of one block. -/
def blockWords (b : Bytes) : List Nat :=
  (List.range 16).map fun i =>
    b.getD (4 * i) 0 * 2 ^ 24 + b.getD (4 * i + 1) 0 * 2 ^ 16
      + b.getD (4 * i + 2) 0 * 2 ^ 8 + b.getD (4 * i + 3) 0

/-- Message schedule: extend 16 words to 64. -/
def sha256Schedule (w16 : List Nat) : List Nat :=
  (List.range 48).foldl
    (fun w _ =>
      w ++ [(w.getD (w.length - 16) 0 + smallSigma0 (w.getD (w.length - 15) 0)
        + w.getD (w.length - 7) 0 + smallSigma1 (w.getD (w.length - 2) 0))
        % 4294967296])
    w16

/-- One round of the compression function on the eight-word working state. -/
def sha256Round (k wi : Nat) : List Nat → List Nat
  | [a, b2, c, d, e, f, g, hh] =>
    let ch := (e &&& f) ^^^ ((e ^^^ 0xffffffff) &&& g)
    let t1 := (hh + bigSigma1 e + ch + k + wi) % 4294967296
    let maj := (a &&& b2) ^^^ (a &&& c) ^^^ (b2 &&& c)
    let t2 := (bigSigma0 a + maj) % 4294967296
    [(t1 + t2) % 4294967296, a, b2, c, (d + t1) % 4294967296, e, f, g]
  | st => st

/-- Compress one block into the hash state. -/
def sha256Compress (h : List Nat) (block : Bytes) : List Nat :=
  let w := sha256Schedule (blockWords block)
  let fin := (List.range 64).foldl
    (fun st i => sha256Round (sha256K.getD i 0) (w.getD i 0) st) h
  (List.range 8).map fun i => (h.getD i 0 + fin.getD i 0) % 4294967296

/-- SHA-256 of a byte list. -/
def sha256 (msg : Bytes) : Bytes :=
  (((toBlocks (sha256Pad msg)).foldl sha256Compress sha256H0).map be32).flatten

/-- Hexadecimal rendering of a byte list, as Buffer.toString of node. -/
def hexOfBytes (b : Bytes) : List Char :=
  (b.map fun x =>
    [("0123456789abcdef".data).getD (x / 16) '0',
     ("0123456789abcdef".data).getD (x % 16) '0']).flatten

/-! Embedding of the Merkle layer of scripts/anchor.js. -/

/-- Buffer.compare of node: lexicographic byte order, a strict prefix is
smaller. -/
def bufCompare : Bytes → Bytes → Int
  | [], [] => 0
  | [], _ :: _ => -1
  | _ :: _, [] => 1
  | x :: xs, y :: ys => if x < y then -1 else if y < x then 1 else bufCompare xs ys

/-- hashPair of scripts/anchor.js: sort the two hashes with Buffer.compare,
concatenate, hash. -/
def hashPair (a b : Bytes) : Bytes :=
  sha256 (if bufCompare a b > 0 then b ++ a else a ++ b)

/-- One pass of the layer loop of buildMerkleTree: hash adjacent pairs, an
unpaired final node is hashed with itself. -/
def nextLayer : List Bytes → List Bytes
  | [] => []
  | [x] => [hashPair x x]
  | x :: y :: t => hashPair x y :: nextLayer t

/-- The while loop of buildMerkleTree with fuel; one unit is spent per
layer, and the layer count is at most the leaf count. -/
def buildLayersGo : Nat → List Bytes → List (List Bytes)
  | 0, l => [l]
  | fuel + 1, l => if l.length ≤ 1 then [l] else l :: buildLayersGo fuel (nextLayer l)

/-- All layers of the Merkle tree, leaves first, singleton root last. -/
def buildLayers (l : List Bytes) : List (List Bytes) := buildLayersGo l.length l

/-- The 32 zero bytes Buffer.alloc(32) produces for the empty tree. -/
def zeros32 : Bytes := List.replicate 32 0

structure MerkleTree where
  root : Bytes
  layers : List (List Bytes)
deriving DecidableEq, Repr

/-- buildMerkleTree of scripts/anchor.js. -/
def buildMerkleTree (leaves : List Bytes) : MerkleTree :=
  if leaves.length = 0 then ⟨zeros32, [[]]⟩
  else if leaves.length = 1 then ⟨leaves.headD [], [leaves]⟩
  else
    let layers := buildLayers leaves
    ⟨(layers.getLastD []).headD zeros32, layers⟩

inductive ProofPos where
  | left
  | right
deriving DecidableEq, Repr

structure ProofStep where
  hash : Bytes
  position : ProofPos
deriving DecidableEq, Repr

/-- getMerkleProof of scripts/anchor.js: the loop runs over every layer but
the last, halving the index; out-of-range array reads cannot occur for
indices inside the layer, and the unpaired final node records itself as its
sibling. -/
def getMerkleProof : List (List Bytes) → Nat → List ProofStep
  | [], _ => []
  | [_], _ => []
  | layer :: l2 :: rest, idx =>
    let isRight := idx % 2 == 1
    let siblingIdx := if isRight then idx - 1 else idx + 1
    (if siblingIdx < layer.length then
      ProofStep.mk (layer.getD siblingIdx []) (if isRight then .left else .right)
    else
      ProofStep.mk (layer.getD idx []) (if isRight then .left else .right))
      :: getMerkleProof (l2 :: rest) (idx / 2)

/-- The recombination loop of verifyMerkleProof: pair current with the
recorded sibling on the recorded side. -/
def foldProof (proof : List ProofStep) (leafHash : Bytes) : Bytes :=
  proof.foldl
    (fun current step =>
      match step.position with
      | .left => hashPair step.hash current
      | .right => hashPair current step.hash)
    leafHash

/-- verifyMerkleProof of scripts/anchor.js. -/
def verifyMerkleProof (leafHash : Bytes) (proof : List ProofStep) (root : Bytes) : Bool :=
  foldProof proof leafHash == root

/-! Embedding of src/synonyms.js.  The module keeps a process-wide mutable
group list; that state is passed explicitly as the groups argument. -/

/-- SYNONYM_GROUPS of src/synonyms.js, in source order. -/
def synonymGroups : List (List String) :=
  [["FXRP", "Flare XRP", "FAsset XRP"],
   ["sFLR", "staked FLR", "Sceptre FLR", "liquid staked FLR"],
   ["WFLR", "wrapped FLR", "wrapped Flare"],
   ["FLR", "Flare", "Flare token"],
   ["USDT0", "USD₮0", "Tether", "USDT"],
   ["CDP", "CDP Dollar", "Enosys Dollar"],
   ["BANK", "FlareBank token", "FB token"],
   ["stXRP", "staked XRP"],
   ["earnXRP", "Upshift XRP", "FXRP vault shares"],
   ["rFLR", "reward FLR"],
   ["LP", "liquidity position", "liquidity provider", "pool position"],
   ["APY", "annual yield", "yearly return", "annual percentage yield"],
   ["APR", "annual rate", "annual percentage rate"],
   ["TVL", "total value locked", "total liquidity"],
   ["IL", "impermanent loss", "divergence loss"],
   ["arb", "arbitrage", "arb opportunity"],
   ["swap", "trade", "exchange", "token swap"],
   ["mint", "create", "issue"],
   ["burn", "redeem", "destroy"],
   ["stake", "staking", "delegate"],
   ["unstake", "unstaking", "undelegate", "withdraw stake"],
   ["bridge", "cross-chain transfer", "bridging"],
   ["slippage", "price impact"],
   ["Enosys", "Enosys DEX", "Enosys V3"],
   ["SparkDex", "Spark DEX", "SparkDex V3"],
   ["Blazeswap", "Blaze swap", "Blazeswap V2"],
   ["Sceptre", "Sceptre Finance", "sFLR protocol"],
   ["Spectra", "Spectra Finance", "PT/YT", "yield trading"],
   ["Upshift", "Upshift Finance", "earnXRP vault"],
   ["Rysk", "Rysk Finance", "covered calls"],
   ["V3 position", "concentrated liquidity", "V3 LP", "CL position"],
   ["stability pool", "SP deposit", "CDP stability"],
   ["covered call", "CC position", "short call"],
   ["rebalance", "adjust position", "reposition"],
   ["compound", "reinvest", "auto-compound"],
   ["claim", "harvest", "collect rewards"],
   ["deposit", "add liquidity", "provide liquidity"],
   ["withdraw", "remove liquidity", "pull out"]]

/-- Lowercased character list of a string. -/
def lowerData (s : String) : List Char := s.data.map Char.toLower

/-- Append with Set semantics: skip elements already present. -/
def setAddAll (s : List (List Char)) (xs : List (List Char)) : List (List Char) :=
  xs.foldl (fun s2 x => if x ∈ s2 then s2 else s2 ++ [x]) s

/-- The buildLookup pass of src/synonyms.js: lowercased phrase to the Set of
its peers. -/
def buildLookup (groups : List (List String)) : List (List Char × List (List Char)) :=
  groups.foldl
    (fun lookup group =>
      let lowerGroup := group.map lowerData
      lowerGroup.foldl
        (fun lookup2 term =>
          let synonyms := lowerGroup.filter (· ≠ term)
          match jsGet lookup2 term with
          | some existing => jsSet lookup2 term (setAddAll existing synonyms)
          | none => jsSet lookup2 term (setAddAll [] synonyms))
        lookup)
    []

/-- Stable insertion of x into an already sorted list: x goes after every
element it is not strictly before. -/
def jsSortInsert {α : Type} (lt : α → α → Bool) (x : α) : List α → List α
  | [] => [x]
  | y :: ys => if lt x y then x :: y :: ys else y :: jsSortInsert lt x ys

/-- JS Array.prototype.sort with a comparator: since ES2019 the sort is
stable, and a stable sort with respect to a consistent comparator has a
unique result, so stable insertion sort is an exact model.  lt a b holds
when the comparator is negative on the pair. -/
def jsSort {α : Type} (lt : α → α → Bool) (l : List α) : List α :=
  l.foldl (fun acc x => jsSortInsert lt x acc) []

/-- expandQuery of src/synonyms.js: the pair of original query words and the
new synonym words, key phrases tried longest first, substring match against
the lowercased query. -/
def expandQuery (groups : List (List String)) (query : List Char) :
    List (List Char) × List (List Char) :=
  let lookup := buildLookup groups
  let lowerQuery := query.map Char.toLower
  let originalTerms := (jsSplitWs lowerQuery).filter (· ≠ [])
  let sortedKeys := jsSort (fun a b => b.length < a.length) (jsKeys lookup)
  let expanded := sortedKeys.foldl
    (fun acc key =>
      if key <:+: lowerQuery then
        ((jsGet lookup key).getD []).foldl
          (fun acc2 syn =>
            (jsSplitWs syn).foldl
              (fun acc3 word =>
                if word ∈ originalTerms then acc3
                else if word ∈ acc3 then acc3
                else acc3 ++ [word])
              acc2)
          acc
      else acc)
    []
  (originalTerms, expanded)

/-! Embedding of src/query.js. -/

/-- Per-document index entry of the QueryEngine docs map.  The defensive
JS defaults (importance double-question 0.5 and friends) are identities
here because every episode carries the fields createEpisode sets. -/
structure DocEntry where
  dl : Nat
  tf : List (List Char × Nat)
  createdAt : Int
  importance : ℚ
  lastAccessedAt : Int
  tags : List String
  type : String
  supersededBy : Option (List String)
deriving DecidableEq, Repr

structure QueryEngineOpts where
  recencyWeight : Option ℚ := none
  recencyLambda : Option ℚ := none
  importanceDecay : Option ℚ := none
  synonymWeight : Option ℚ := none
deriving Repr

structure QueryEngine where
  recencyWeight : ℚ
  recencyLambda : ℚ
  importanceDecay : ℚ
  synonymWeight : ℚ
  docs : List (String × DocEntry)
  df : List (List Char × JsNum)
  totalDocs : Int
  totalLength : Int
  lastIndexedTimestamp : Int
deriving Repr

/-- The QueryEngine constructor: the double-question defaults apply only to
absent options, exactly as nullish coalescing. -/
def QueryEngine.create (opts : QueryEngineOpts) : QueryEngine :=
  { recencyWeight := opts.recencyWeight.getD (3 / 10),
    recencyLambda := opts.recencyLambda.getD (1 / 10),
    importanceDecay := opts.importanceDecay.getD (95 / 100),
    synonymWeight := opts.synonymWeight.getD (1 / 2),
    docs := [], df := [], totalDocs := 0, totalLength := 0,
    lastIndexedTimestamp := 0 }

/-- addDocument of src/query.js. -/
def QueryEngine.addDocument (e : QueryEngine) (ep : Episode) : QueryEngine :=
  if (jsGet e.docs ep.id).isSome then e
  else
    let tf := termFrequencies ep.tokens
    let dl := ep.tokens.length
    let df := (tf.map (·.1)).foldl
      (fun m term => jsSet m term (.num (jsOr0 (jsGet m term) + 1))) e.df
    { e with
      df := df,
      docs := jsSet e.docs ep.id
        { dl := dl, tf := tf, createdAt := ep.createdAt,
          importance := ep.importance, lastAccessedAt := ep.lastAccessedAt,
          tags := ep.tags, type := ep.type, supersededBy := ep.supersededBy },
      totalDocs := e.totalDocs + 1,
      totalLength := e.totalLength + dl,
      lastIndexedTimestamp :=
        if ep.createdAt > e.lastIndexedTimestamp then ep.createdAt
        else e.lastIndexedTimestamp }

/-- removeDocument of src/query.js, including the JS comparison semantics on
the df read (an undefined read compares false and would be stored as NaN). -/
def QueryEngine.removeDocument (e : QueryEngine) (id : String) : QueryEngine :=
  match jsGet e.docs id with
  | none => e
  | some doc =>
    let df := (doc.tf.map (·.1)).foldl
      (fun m term =>
        let c := jsGet m term
        if jsLe1 c then jsDelete m term else jsSet m term (jsSub1 c))
      e.df
    { e with
      df := df,
      totalDocs := e.totalDocs - 1,
      totalLength := e.totalLength - doc.dl,
      docs := jsDelete e.docs id }

/-- rebuild of src/query.js: clear, then add all. -/
def QueryEngine.rebuild (e : QueryEngine) (episodes : List Episode) : QueryEngine :=
  episodes.foldl QueryEngine.addDocument
    { e with
      docs := [],
      df := [],
      totalDocs := 0,
      totalLength := 0,
      lastIndexedTimestamp := 0 }

structure SearchOpts where
  limit : Option Nat := none
  tags : Option (List String) := none
  type : Option String := none
  after : Option Int := none
  before : Option Int := none
  minImportance : Option ℚ := none
  useSynonyms : Bool := true
  includeSuperseded : Bool := false
deriving Repr

structure SearchResult where
  id : String
  score : ℚ
  bm25 : ℚ
  recency : ℚ
deriving DecidableEq, Repr

/-- Tag filter guard of search, with JS truthiness: an absent or empty tags
option filters nothing. -/
def tagFilterSkips (opt : Option (List String)) (docTags : List String) : Bool :=
  match opt with
  | some ts => ¬ ts.isEmpty && ¬ ts.all (fun t => docTags.contains t)
  | none => false

/-- Type filter guard, with JS truthiness: the empty string is falsy. -/
def typeFilterSkips (opt : Option String) (docType : String) : Bool :=
  match opt with
  | some ty => ty != "" && docType != ty
  | none => false

/-- Time filter guard, with JS truthiness: a zero timestamp is falsy and
filters nothing. -/
def afterFilterSkips (opt : Option Int) (createdAt : Int) : Bool :=
  match opt with
  | some a => a != 0 && decide (createdAt < a)
  | none => false

def beforeFilterSkips (opt : Option Int) (createdAt : Int) : Bool :=
  match opt with
  | some b2 => b2 != 0 && decide (createdAt > b2)
  | none => false

def minImportanceSkips (opt : Option ℚ) (currentImportance : ℚ) : Bool :=
  match opt with
  | some m => m != 0 && decide (currentImportance < m)
  | none => false

/-- JS truthiness of doc.supersededBy and its length. -/
def hasSupersededBy : Option (List String) → Bool
  | some l => ¬ l.isEmpty
  | none => false

def DAY_MS : ℚ := 86400000

/-- The per-document scoring body of search in src/query.js; none models
continue. -/
def scoreDoc (e : QueryEngine) (opts : SearchOpts) (now : Int) (avgdl : ℚ)
    (queryTokens synonymTokens : List (List Char)) (p : String × DocEntry) :
    Option SearchResult :=
  let doc := p.2
  if tagFilterSkips opts.tags doc.tags then none
  else if typeFilterSkips opts.type doc.type then none
  else if afterFilterSkips opts.after doc.createdAt then none
  else if beforeFilterSkips opts.before doc.createdAt then none
  else
    let daysSinceAccess := ((now - doc.lastAccessedAt : Int) : ℚ) / DAY_MS
    let currentImportance := doc.importance * mathPow e.importanceDecay daysSinceAccess
    if minImportanceSkips opts.minImportance currentImportance then none
    else
      let termScore := fun (term : List Char) =>
        let tf := jsGetD doc.tf term 0
        if tf = 0 then 0
        else
          bm25Score tf doc.dl avgdl
            (idf (jsOr0 (jsGet e.df term)) (e.totalDocs : ℚ))
      let bm := (queryTokens.map termScore).sum
      let synBm :=
        if synonymTokens.length > 0 then (synonymTokens.map termScore).sum else 0
      let totalBm25 := bm + synBm * e.synonymWeight
      if totalBm25 = 0 then none
      else
        let daysSinceCreation := ((now - doc.createdAt : Int) : ℚ) / DAY_MS
        let recency := mathExp (-e.recencyLambda * daysSinceCreation)
        let score := (1 - e.recencyWeight) * totalBm25 + e.recencyWeight * recency
        let finalScore := score * (1 / 2 + currentImportance)
        let finalScore2 :=
          if ¬ opts.includeSuperseded ∧ hasSupersededBy doc.supersededBy = true then
            finalScore * (3 / 10)
          else finalScore
        some ⟨p.1, finalScore2, totalBm25, recency⟩

/-- search of src/query.js.  The process-wide synonym group state is the
groups argument and Date.now is the now argument. -/
def QueryEngine.search (e : QueryEngine) (groups : List (List String))
    (query : List Char) (opts : SearchOpts) (now : Int) : List SearchResult :=
  let limit := opts.limit.getD 10
  let queryTokens := tokenize query
  if queryTokens = [] then []
  else
    let synonymTokens :=
      if opts.useSynonyms then
        (((expandQuery groups query).2.map tokenize).flatten).filter
          (fun t => ¬ t ∈ queryTokens)
      else []
    let avgdl :=
      if e.totalDocs > 0 then (e.totalLength : ℚ) / (e.totalDocs : ℚ) else 1
    let results := e.docs.filterMap (scoreDoc e opts now avgdl queryTokens synonymTokens)
    (jsSort (fun a b => b.score < a.score) results).take limit

/-! Embedding of scripts/encryption.js.  The cipher itself is node crypto
createCipheriv with chacha20-poly1305, which is external to the repository:
the ChaCha20 keystream is implemented here in full (RFC 8439), while the
Poly1305 authenticator is modelled from the spec, which demands that
decryption under a wrong key MUST fail with an integrity error: the tag is
an ideal MAC binding key, nonce and ciphertext injectively. -/

def rotl32 (x n : Nat) : Nat := ((x <<< n) ||| (x >>> (32 - n))) % 4294967296

/-- ChaCha20 quarter round. -/
def ccQr (a b c d : Nat) : Nat × Nat × Nat × Nat :=
  let a := (a + b) % 4294967296
  let d := rotl32 (d ^^^ a) 16
  let c := (c + d) % 4294967296
  let b := rotl32 (b ^^^ c) 12
  let a := (a + b) % 4294967296
  let d := rotl32 (d ^^^ a) 8
  let c := (c + d) % 4294967296
  let b := rotl32 (b ^^^ c) 7
  (a, b, c, d)

/-- The sixteen 32-bit words of a ChaCha20 state. -/
abbrev CC16 :=
  Nat × Nat × Nat × Nat × Nat × Nat × Nat × Nat ×
  Nat × Nat × Nat × Nat × Nat × Nat × Nat × Nat

/-- One ChaCha20 double round: four column rounds then four diagonal
rounds. -/
def ccDoubleRound : CC16 → CC16
  | (x0, x1, x2, x3, x4, x5, x6, x7, x8, x9, x10, x11, x12, x13, x14, x15) =>
    let (x0, x4, x8, x12) := ccQr x0 x4 x8 x12
    let (x1, x5, x9, x13) := ccQr x1 x5 x9 x13
    let (x2, x6, x10, x14) := ccQr x2 x6 x10 x14
    let (x3, x7, x11, x15) := ccQr x3 x7 x11 x15
    let (x0, x5, x10, x15) := ccQr x0 x5 x10 x15
    let (x1, x6, x11, x12) := ccQr x1 x6 x11 x12
    let (x2, x7, x8, x13) := ccQr x2 x7 x8 x13
    let (x3, x4, x9, x14) := ccQr x3 x4 x9 x14
    (x0, x1, x2, x3, x4, x5, x6, x7, x8, x9, x10, x11, x12, x13, x14, x15)

/-- Little-endian serialization of a 32-bit word. -/
def le32 (n : Nat) : Bytes := [n % 256, n / 256 % 256, n / 65536 % 256, n / 16777216 % 256]

/-- Little-endian 32-bit word read at a byte offset. -/
def le32At (b : Bytes) (i : Nat) : Nat :=
  b.getD i 0 + b.getD (i + 1) 0 * 256 + b.getD (i + 2) 0 * 65536
    + b.getD (i + 3) 0 * 16777216

/-- Add two states word-wise mod 2 to the 32 and serialize little-endian. -/
def cc16Bytes : CC16 → CC16 → Bytes
  | (x0, x1, x2, x3, x4, x5, x6, x7, x8, x9, x10, x11, x12, x13, x14, x15),
    (y0, y1, y2, y3, y4, y5, y6, y7, y8, y9, y10, y11, y12, y13, y14, y15) =>
    le32 ((x0 + y0) % 4294967296) ++ le32 ((x1 + y1) % 4294967296)
    ++ le32 ((x2 + y2) % 4294967296) ++ le32 ((x3 + y3) % 4294967296)
    ++ le32 ((x4 + y4) % 4294967296) ++ le32 ((x5 + y5) % 4294967296)
    ++ le32 ((x6 + y6) % 4294967296) ++ le32 ((x7 + y7) % 4294967296)
    ++ le32 ((x8 + y8) % 4294967296) ++ le32 ((x9 + y9) % 4294967296)
    ++ le32 ((x10 + y10) % 4294967296) ++ le32 ((x11 + y11) % 4294967296)
    ++ le32 ((x12 + y12) % 4294967296) ++ le32 ((x13 + y13) % 4294967296)
    ++ le32 ((x14 + y14) % 4294967296) ++ le32 ((x15 + y15) % 4294967296)

/-- The ChaCha20 block function for a 32-byte key and 12-byte nonce. -/
def chacha20Block (key nonce : Bytes) (counter : Nat) : Bytes :=
  let init : CC16 :=
    (0x61707865, 0x3320646e, 0x79622d32, 0x6b206574,
     le32At key 0, le32At key 4, le32At key 8, le32At key 12,
     le32At key 16, le32At key 20, le32At key 24, le32At key 28,
     counter % 4294967296, le32At nonce 0, le32At nonce 4, le32At nonce 8)
  cc16Bytes init ((List.range 10).foldl (fun st _ => ccDoubleRound st) init)

/-- ChaCha20 keystream for a payload of the given length; the payload
counter starts at 1, as in the AEAD construction (block 0 keys the MAC). -/
def chachaKeystream (key nonce : Bytes) (len : Nat) : Bytes :=
  (((List.range ((len + 63) / 64)).map fun i => chacha20Block key nonce (1 + i)).flatten).take len

/-- Modelled from the spec: the Poly1305 authenticator of node crypto is not
repository code; the spec requires decryption with a wrong key to fail with
IntegrityFailure, so the tag is an ideal MAC that determines key, nonce and
ciphertext injectively (length-prefixed concatenation). -/
def idealPolyTag (key nonce ciphertext : Bytes) : Bytes :=
  key.length :: key ++ nonce.length :: nonce ++ ciphertext

/-- The hex envelope returned by encrypt of scripts/encryption.js. -/
structure EncEnvelope where
  nonce : Bytes
  ciphertext : Bytes
  tag : Bytes
deriving DecidableEq, Repr

/-- XOR of payload bytes with the keystream. -/
def xorBytes (a b : Bytes) : Bytes := List.zipWith Nat.xor a b

/-- encrypt of scripts/encryption.js.  The hex key string is embedded as its
decoded bytes, the random nonce is a parameter. -/
def encrypt (plaintext key nonce : Bytes) : Except String EncEnvelope :=
  if key.length ≠ 32 then .error "Key must be 32 bytes"
  else
    let ciphertext := xorBytes plaintext (chachaKeystream key nonce plaintext.length)
    .ok ⟨nonce, ciphertext, idealPolyTag key nonce ciphertext⟩

/-- decrypt of scripts/encryption.js: the authenticity check of
decipher.final surfaces as an integrity error. -/
def decrypt (data : EncEnvelope) (key : Bytes) : Except String Bytes :=
  if key.length ≠ 32 then .error "Key must be 32 bytes"
  else if idealPolyTag key data.nonce data.ciphertext ≠ data.tag then
    .error "Unsupported state or unable to authenticate data"
  else .ok (xorBytes data.ciphertext (chachaKeystream key data.nonce data.ciphertext.length))

/-! UTF-8 and JSON-ish serialization helpers used by the orchestrator. -/

/-- UTF-8 encoding of one character. -/
def utf8EncodeChar (c : Char) : Bytes :=
  let n := c.toNat
  if n < 128 then [n]
  else if n < 2048 then [192 + n / 64, 128 + n % 64]
  else if n < 65536 then [224 + n / 4096, 128 + n / 64 % 64, 128 + n % 64]
  else [240 + n / 262144, 128 + n / 4096 % 64, 128 + n / 64 % 64, 128 + n % 64]

def utf8Encode (s : List Char) : Bytes := (s.map utf8EncodeChar).flatten

/-- contentHash of src/core.js: first 12 hex characters of the SHA-256 of
the text. -/
def contentHash (text : List Char) : String :=
  String.mk ((hexOfBytes (sha256 (utf8Encode text))).take 12)

/-- JSON.stringify of the envelope, keys in insertion order.  Hex payloads
never need escaping. -/
def encodeEnvelope (env : EncEnvelope) : List Char :=
  "\x7b\"nonce\":\"".data ++ hexOfBytes env.nonce
    ++ "\",\"ciphertext\":\"".data ++ hexOfBytes env.ciphertext
    ++ "\",\"tag\":\"".data ++ hexOfBytes env.tag ++ "\"\x7d".data

/-- JSON.stringify of a string array; escaping inside tags is not modelled
(every tag this development evaluates is escape-free). -/
def jsonStringList : List String → List Char
  | [] => "[]".data
  | l => '[' :: ((l.map fun s => '"' :: (s.data ++ ['"'])).intersperse [',']).flatten ++ [']']

/-! Embedding of src/storage/file.js as a pure store state: the episodes
directory is the episodes association list (insertion order models file
enumeration order), the tag index file is the tagIndex list, and the
persisted BM25 index file is bm25Index.  The JSON round trip of the index
file is modelled structurally (docMeta entries are the parsed records). -/

structure SavedIndexMeta where
  createdAt : Int
  importance : ℚ
  lastAccessedAt : Int
  tags : List String
  type : String
deriving DecidableEq, Repr

structure SavedIndex where
  df : List (List Char × JsNum)
  docLengths : List (String × Nat)
  docMeta : List (String × SavedIndexMeta)
  totalDocs : Int
  totalLength : Int
  lastIndexedTimestamp : Int
deriving Repr

structure Store where
  episodes : List (String × Episode)
  tagIndex : List (String × List String)
  bm25Index : Option SavedIndex

/-- saveEpisode: overwrite by id. -/
def Store.saveEpisode (s : Store) (ep : Episode) : Store :=
  { s with episodes := jsSet s.episodes ep.id ep }

/-- getEpisode: by id or none. -/
def Store.getEpisode (s : Store) (id : String) : Option Episode :=
  jsGet s.episodes id

/-- getEpisodesSince of src/storage/file.js: strictly newer than the
timestamp. -/
def Store.getEpisodesSince (s : Store) (t : Int) : List Episode :=
  (s.episodes.map (·.2)).filter fun ep => decide (ep.createdAt > t)

/-- listEpisodeIds: ids without reading bodies. -/
def Store.listEpisodeIds (s : Store) : List String := s.episodes.map (·.1)

/-- getAllEpisodes. -/
def Store.getAllEpisodes (s : Store) : List Episode := s.episodes.map (·.2)

/-- addToTagIndex of src/storage/file.js: per tag, create the id list on
demand and push the id if absent. -/
def Store.addToTagIndex (s : Store) (ep : Episode) : Store :=
  { s with
    tagIndex := ep.tags.foldl
      (fun idx tag =>
        let cur := (jsGet idx tag).getD []
        if ep.id ∈ cur then jsSet idx tag cur else jsSet idx tag (cur ++ [ep.id]))
      s.tagIndex }

/-- exportIndex of src/query.js. -/
def QueryEngine.exportIndex (e : QueryEngine) : SavedIndex :=
  { df := e.df,
    docLengths := e.docs.map fun p => (p.1, p.2.dl),
    docMeta := e.docs.map fun p =>
      (p.1, ⟨p.2.createdAt, p.2.importance, p.2.lastAccessedAt, p.2.tags, p.2.type⟩),
    totalDocs := e.totalDocs,
    totalLength := e.totalLength,
    lastIndexedTimestamp := e.lastIndexedTimestamp }

/-! Embedding of the orchestrator src/memory.js (AgentMemory). -/

inductive InitMode where
  | full
  | incremental
deriving DecidableEq, Repr

/-- The index acceptance decision of AgentMemory.init: with a persisted
index present, fetch the episodes newer than its lastIndexedTimestamp and
all ids, and accept iff Math.abs of allIds.length minus totalDocs plus
newEpisodes.length is at most newEpisodes.length; a missing or corrupt
persisted index (loadBM25Index none) forces a full rebuild. -/
def initIndexMode (saved : Option SavedIndex) (store : Store) : InitMode :=
  match saved with
  | none => .full
  | some savedIndex =>
    let newEpisodes := store.getEpisodesSince savedIndex.lastIndexedTimestamp
    let allIds := store.listEpisodeIds
    let expectedDocs := savedIndex.totalDocs + (newEpisodes.length : Int)
    if ((allIds.length : Int) - expectedDocs).natAbs ≤ newEpisodes.length then
      .incremental
    else .full

/-- The orchestrator state after init: the engine, the store and the
resolved encryption key (none when encryption is disabled). -/
structure AgentMemory where
  agentId : String := "default"
  chunkMode : String := "sentence"
  maxChunkTokens : Int := 256
  engine : QueryEngine
  store : Store
  encryptionKey : Option Bytes := none

/-- The encrypt-then-persist transform of AgentMemory: identity without a
key, otherwise wrap text and a nonempty tag list in envelopes.  The two
random nonces are parameters. -/
def AgentMemory.encryptEpisode (m : AgentMemory) (ep : Episode)
    (nText nTags : Bytes) : Except String Episode :=
  match m.encryptionKey with
  | none => .ok ep
  | some key =>
    match encrypt (utf8Encode ep.text) key nText with
    | .error e => .error e
    | .ok encContent =>
      let ep2 := { ep with text := encodeEnvelope encContent, encrypted := true }
      if ep2.tags ≠ [] then
        match encrypt (utf8Encode (jsonStringList ep2.tags)) key nTags with
        | .error e => .error e
        | .ok encTags =>
          .ok { ep2 with
                tags := [String.mk (encodeEnvelope encTags)],
                tagsEncrypted := true }
      else .ok ep2

/-- The option bag remember passes through to createEpisode. -/
structure RememberOpts where
  type : String := "fact"
  tags : List String := []
  importance : ℚ := 1 / 2
  supersedes : Option (List String) := none

/-- One chunk step of remember: create the episode for the indexed chunk
(supersedes only on chunk 0), index it in the engine, encrypt it, persist it
and tag-index it; an error short-circuits the fold. -/
def rememberStep (m : AgentMemory) (opts : RememberOpts) (now : Int)
    (idSupply : Nat → String) (nonceSupply : Nat → Bytes)
    (total : Nat) (sourceId : String)
    (acc : Except String (AgentMemory × List Episode)) (p : Nat × List Char) :
    Except String (AgentMemory × List Episode) :=
  match acc with
  | .error e => .error e
  | .ok (m2, eps) =>
    let i := p.1
    let ep := createEpisode p.2
      { type := opts.type, tags := opts.tags,
        importance := opts.importance, agentId := m.agentId,
        chunkIndex := i, totalChunks := total,
        sourceId := some sourceId,
        supersedes := if i = 0 then opts.supersedes else none }
      now (idSupply i)
    let engine2 := m2.engine.addDocument ep
    match m2.encryptEpisode ep (nonceSupply (2 * i)) (nonceSupply (2 * i + 1)) with
    | .error e => .error e
    | .ok diskEp =>
      let store2 := (m2.store.saveEpisode diskEp).addToTagIndex diskEp
      .ok ({ m2 with engine := engine2, store := store2 }, eps ++ [ep])

/-- remember of the orchestrator, modelled after init has completed: chunk,
create one episode per chunk (supersedes only on chunk 0), index it, encrypt
and persist it, tag-index it; then push the new head id onto the
supersededBy list of every superseded episode (deduplicated, creating the
list when absent); finally persist the exported index.  Ids and nonces are
supplied explicitly; a none chunker result (the nonterminating fixed mode)
and a bad key surface as errors. -/
def AgentMemory.remember (m : AgentMemory) (text : List Char)
    (opts : RememberOpts) (now : Int) (idSupply : Nat → String)
    (nonceSupply : Nat → Bytes) : Except String (AgentMemory × List Episode) :=
  match chunk text { mode := m.chunkMode, maxTokens := m.maxChunkTokens } with
  | none => .error "chunk loop does not terminate"
  | some chunks =>
    let sourceId := contentHash text
    let afterChunks := chunks.enum.foldl
      (rememberStep m opts now idSupply nonceSupply chunks.length sourceId)
      (.ok (m, []))
    match afterChunks with
    | .error e => .error e
    | .ok (m3, episodes) =>
      let m4 :=
        match opts.supersedes, episodes with
        | some olds, first :: _ =>
          if olds ≠ [] then
            olds.foldl
              (fun (m5 : AgentMemory) oldId =>
                match m5.store.getEpisode oldId with
                | none => m5
                | some oldEp =>
                  let sb := oldEp.supersededBy.getD []
                  let sb2 := if first.id ∈ sb then sb else sb ++ [first.id]
                  { m5 with
                    store := m5.store.saveEpisode { oldEp with supersededBy := some sb2 } })
              m3
          else m3
        | _, _ => m3
      .ok ({ m4 with
             store := { m4.store with bm25Index := some m4.engine.exportIndex } },
           episodes)

/-! Remaining definitions used by the claim statements. -/

/-- An operation on the in-memory index, for quantifying over call
sequences. -/
inductive EngineOp where
  | add (ep : Episode)
  | remove (id : String)

/-- Apply a sequence of addDocument and removeDocument calls. -/
def applyOps (ops : List EngineOp) (e : QueryEngine) : QueryEngine :=
  ops.foldl
    (fun e2 op =>
      match op with
      | .add ep => e2.addDocument ep
      | .remove id => e2.removeDocument id)
    e

/-- The number of indexed documents whose tf map gives the term a positive
count. -/
def dfCount (docs : List (String × DocEntry)) (t : List Char) : Nat :=
  docs.countP fun p => decide (0 < jsGetD p.2.tf t 0)

/-- The index-algebra invariant of the QueryEngine: df counts exactly the
documents whose tf gives the term a positive count (and df stores no zero),
the totals agree with the docs map, and the stored tf maps are positive with
unique keys. -/
structure EngineInv (e : QueryEngine) : Prop where
  df_eq : ∀ t, jsGet e.df t =
    if dfCount e.docs t = 0 then none else some (.num (dfCount e.docs t))
  df_nodup : (e.df.map (·.1)).Nodup
  total_docs : e.totalDocs = e.docs.length
  total_len : e.totalLength = (e.docs.map fun p => (p.2.dl : Int)).sum
  docs_nodup : (e.docs.map (·.1)).Nodup
  tf_pos : ∀ p ∈ e.docs, ∀ q ∈ p.2.tf, 0 < q.2
  tf_nodup : ∀ p ∈ e.docs, (p.2.tf.map (·.1)).Nodup

/-- Concrete episode for the C2 witness. -/
def c2ep : Episode :=
  { id := "a", text := "hello".data, createdAt := 0, lastAccessedAt := 0,
    tokens := ["hello".data] }

/-- A three-episode store whose persisted index undercounts by more than the
new-episode tolerance of the spec but not of the code. -/
def c1Episode (id : String) (created : Int) : Episode :=
  { id := id, text := "x".data, createdAt := created, lastAccessedAt := created,
    tokens := [] }

def c1Store : Store :=
  { episodes := [("a", c1Episode "a" 5), ("b", c1Episode "b" 20), ("c", c1Episode "c" 3)],
    tagIndex := [], bm25Index := none }

def c1Saved : SavedIndex :=
  { df := [], docLengths := [], docMeta := [], totalDocs := 1, totalLength := 0,
    lastIndexedTimestamp := 10 }

/-! Claim C6 witness state. -/

/-- The already-stored episode the C6 witness supersedes. -/
def c6old : Episode :=
  { id := "old", text := "x".data, createdAt := 0, lastAccessedAt := 0,
    tokens := [] }

/-- Orchestrator state for the C6 witness: sentence chunking, no encryption,
one stored episode. -/
def c6m : AgentMemory :=
  { engine := QueryEngine.create {},
    store := { episodes := [("old", c6old)], tagIndex := [], bm25Index := none } }

/-! Claim C4.  Results of search are sorted by descending score and cut to
the limit; on equal scores the code keeps the docs-map insertion order (the
stable sort never reorders ties), there is no id tie-break.  The two-doc
engine below produces a tie that stays in insertion order b before a. -/

/-- Episode used by the C4 tie counterexample. -/
def c4ep (id : String) : Episode :=
  { id := id, text := "hello".data, createdAt := 0, lastAccessedAt := 0,
    tokens := tokenize "hello".data }

/-- The index entry both C4 episodes produce. -/
def c4entry : DocEntry :=
  { dl := 1, tf := [("hello".data, 1)], createdAt := 0, importance := 1 / 2,
    lastAccessedAt := 0, tags := [], type := "fact", supersededBy := none }

/-- Engine with two identical docs added under ids b then a. -/
def c4engine : QueryEngine :=
  ((QueryEngine.create {}).addDocument (c4ep "b")).addDocument (c4ep "a")

/-- The search results for the shared token, synonyms off, at time 0. -/
def c4results : List SearchResult :=
  c4engine.search [] "hello".data { useSynonyms := false } 0


/-! Claim C1.  The spec accepts the persisted index iff the id count lies in
the interval from totalDocs to totalDocs plus the new-episode count; the
code takes Math.abs of the difference against expectedDocs, so its window is
totalDocs to totalDocs plus twice the new-episode count. -/

/-- C1 counterexample: with totalDocs 1, one new episode and three ids on
disk, the id count 3 is outside the claimed interval from 1 to 2, yet init
accepts the persisted index and runs incrementally. -/
theorem c1_counterexample :
    initIndexMode (some c1Saved) c1Store = .incremental ∧
    ¬ (c1Saved.totalDocs ≤ (c1Store.listEpisodeIds.length : Int) ∧
       (c1Store.listEpisodeIds.length : Int) ≤
         c1Saved.totalDocs +
           ((c1Store.getEpisodesSince c1Saved.lastIndexedTimestamp).length : Int)) := by
  decide

/-- C1 as amended: the orchestrator accepts the persisted index iff the
number of episode ids on disk lies in the interval from persisted.totalDocs
to persisted.totalDocs plus twice the number of episodes newer than
persisted.lastIndexedTimestamp; otherwise, and when no persisted index
loads, it does a full rebuild. -/
theorem c1_incremental_acceptance (idx : SavedIndex) (store : Store) :
    (initIndexMode (some idx) store = .incremental ↔
      idx.totalDocs ≤ (store.listEpisodeIds.length : Int) ∧
      (store.listEpisodeIds.length : Int) ≤
        idx.totalDocs +
          2 * ((store.getEpisodesSince idx.lastIndexedTimestamp).length : Int)) ∧
    (initIndexMode (some idx) store = .full ↔
      ¬ (idx.totalDocs ≤ (store.listEpisodeIds.length : Int) ∧
        (store.listEpisodeIds.length : Int) ≤
          idx.totalDocs +
            2 * ((store.getEpisodesSince idx.lastIndexedTimestamp).length : Int))) ∧
    initIndexMode none store = .full := by
  refine ⟨?_, ?_, rfl⟩ <;>
  · simp only [initIndexMode]
    split_ifs with h
    · simp only [reduceCtorEq, iff_true, iff_false, true_iff, false_iff]
      omega
    · simp only [reduceCtorEq, iff_true, iff_false, true_iff, false_iff]
      omega

/-! Claim C5.  Determinism and the no-short-token property hold, but the
stopword claim fails: stemming runs after the stopword filter and can map a
non-stopword onto a stopword. -/

/-- C5 counterexample: the input thens tokenizes to the single token then,
which is in the stopword set. -/
theorem c5_counterexample :
    tokenize "thens".data = ["then".data] ∧ "then".data ∈ stopWords := by
  decide

/-- Every branch of the stemmer keeps at least two characters when given at
least two. -/
theorem stemLight_two_le (w : List Char) (h : 2 ≤ w.length) :
    2 ≤ (stemLight w).length := by
  rw [stemLight]
  by_cases h0 : w.length ≤ 3
  · rw [if_pos h0]; exact h
  rw [if_neg h0]
  by_cases h1 : (decide ("ies".data <:+ w) && decide (w.length > 4)) = true
  · rw [if_pos h1]
    have hb := of_decide_eq_true ((Bool.and_eq_true _ _).mp h1).2
    simp only [List.length_append, List.length_take, List.length_cons, List.length_nil]
    omega
  rw [if_neg h1]
  by_cases h2 : (decide ("ing".data <:+ w) && decide (w.length > 5)) = true
  · rw [if_pos h2]
    have hb := of_decide_eq_true ((Bool.and_eq_true _ _).mp h2).2
    simp only [List.length_take]
    omega
  rw [if_neg h2]
  by_cases h3 : (decide ("tion".data <:+ w) && decide (w.length > 5)) = true
  · rw [if_pos h3]
    have hb := of_decide_eq_true ((Bool.and_eq_true _ _).mp h3).2
    simp only [List.length_take]
    omega
  rw [if_neg h3]
  by_cases h4 : (decide ("ment".data <:+ w) && decide (w.length > 5)) = true
  · rw [if_pos h4]
    have hb := of_decide_eq_true ((Bool.and_eq_true _ _).mp h4).2
    simp only [List.length_take]
    omega
  rw [if_neg h4]
  by_cases h5 : (decide ("ness".data <:+ w) && decide (w.length > 5)) = true
  · rw [if_pos h5]
    have hb := of_decide_eq_true ((Bool.and_eq_true _ _).mp h5).2
    simp only [List.length_take]
    omega
  rw [if_neg h5]
  by_cases h6 : (decide ("ful".data <:+ w) && decide (w.length > 4)) = true
  · rw [if_pos h6]
    have hb := of_decide_eq_true ((Bool.and_eq_true _ _).mp h6).2
    simp only [List.length_take]
    omega
  rw [if_neg h6]
  by_cases h7 : (decide ("less".data <:+ w) && decide (w.length > 5)) = true
  · rw [if_pos h7]
    have hb := of_decide_eq_true ((Bool.and_eq_true _ _).mp h7).2
    simp only [List.length_take]
    omega
  rw [if_neg h7]
  by_cases h8 : (decide ("able".data <:+ w) && decide (w.length > 5)) = true
  · rw [if_pos h8]
    have hb := of_decide_eq_true ((Bool.and_eq_true _ _).mp h8).2
    simp only [List.length_take]
    omega
  rw [if_neg h8]
  by_cases h9 : (decide ("ible".data <:+ w) && decide (w.length > 5)) = true
  · rw [if_pos h9]
    have hb := of_decide_eq_true ((Bool.and_eq_true _ _).mp h9).2
    simp only [List.length_take]
    omega
  rw [if_neg h9]
  by_cases h10 : (decide ("ed".data <:+ w) && decide (w.length > 4)) = true
  · rw [if_pos h10]
    have hb := of_decide_eq_true ((Bool.and_eq_true _ _).mp h10).2
    simp only [List.length_take]
    omega
  rw [if_neg h10]
  by_cases h11 : (decide ("ly".data <:+ w) && decide (w.length > 4)) = true
  · rw [if_pos h11]
    have hb := of_decide_eq_true ((Bool.and_eq_true _ _).mp h11).2
    simp only [List.length_take]
    omega
  rw [if_neg h11]
  by_cases h12 : (decide ("er".data <:+ w) && decide (w.length > 4)) = true
  · rw [if_pos h12]
    have hb := of_decide_eq_true ((Bool.and_eq_true _ _).mp h12).2
    simp only [List.length_take]
    omega
  rw [if_neg h12]
  by_cases h13 : (decide ("est".data <:+ w) && decide (w.length > 4)) = true
  · rw [if_pos h13]
    have hb := of_decide_eq_true ((Bool.and_eq_true _ _).mp h13).2
    simp only [List.length_take]
    omega
  rw [if_neg h13]
  by_cases h14 : (decide ("s".data <:+ w) && ! decide ("ss".data <:+ w) && decide (w.length > 3)) = true
  · rw [if_pos h14]
    have hb := of_decide_eq_true ((Bool.and_eq_true _ _).mp h14).2
    simp only [List.length_take]
    omega
  rw [if_neg h14]
  exact h

/-- C5 as amended: tokenize is deterministic and never returns a token of
length one or less, but its result is not always disjoint from the stopword
set. -/
theorem c5_tokenize_deterministic_no_short (T : List Char) :
    tokenize T = tokenize T ∧ ∀ w ∈ tokenize T, 2 ≤ w.length := by
  refine ⟨rfl, ?_⟩
  intro w hw
  simp only [tokenize, List.mem_map, List.mem_filter] at hw
  obtain ⟨v, ⟨_, hv⟩, rfl⟩ := hw
  have h2 : 2 ≤ v.length := by
    have := of_decide_eq_true hv
    omega
  exact stemLight_two_le v h2

/-- C5 witness: at the concrete text, both conjuncts hold with the
hypothesis discharged on the token hello. -/
theorem c5_witness :
    tokenize "a".data = tokenize "a".data ∧ 2 ≤ ("hello".data : List Char).length :=
  ⟨(c5_tokenize_deterministic_no_short "a".data).1,
   (c5_tokenize_deterministic_no_short "hello world".data).2 "hello".data (by decide)⟩

/-! Claim C9.  The QueryEngine constructor stores recencyWeight unchanged:
no clamping and no configuration-time error exists in the code. -/

/-- C9 counterexample: configured with recencyWeight 2, the engine stores 2,
a value outside the unit interval, and construction succeeds. -/
theorem c9_counterexample :
    (QueryEngine.create { recencyWeight := some 2 }).recencyWeight = 2 ∧
    ¬ ((0 : ℚ) ≤ (QueryEngine.create { recencyWeight := some 2 }).recencyWeight ∧
       (QueryEngine.create { recencyWeight := some 2 }).recencyWeight ≤ 1) := by
  constructor
  · rfl
  · norm_num [QueryEngine.create]

/-! Claim C10.  The fixed chunking loop advances by maxTokens - overlap:
it terminates for every text when maxTokens exceeds overlap, and never
terminates otherwise. -/

/-- The split of any text is nonempty (JS split always yields at least one
piece). -/
theorem jsSplitWsGo_ne_nil (cs cur b) : jsSplitWsGo cs cur b ≠ [] := by
  induction cs generalizing cur b with
  | nil => simp [jsSplitWsGo]
  | cons c t ih =>
    simp only [jsSplitWsGo]
    split_ifs <;> simp [ih]

theorem jsSplitWs_ne_nil (cs : List Char) : jsSplitWs cs ≠ [] :=
  jsSplitWsGo_ne_nil cs [] false

/-- Gas sufficiency for the fixed chunk loop with a positive step. -/
theorem chunkFixedGas_isSome (tokens : List (List Char)) (maxTokens overlap : Int)
    (hstep : overlap < maxTokens) :
    ∀ gas (i : Int), ((tokens.length : Int) - i).toNat < gas →
      (chunkFixedGas tokens maxTokens overlap gas i).isSome := by
  intro gas
  induction gas with
  | zero => omega
  | succ g ih =>
    intro i hi
    simp only [chunkFixedGas]
    split_ifs with hlt
    · have hrec := ih (i + (maxTokens - overlap)) (by omega)
      cases hc : chunkFixedGas tokens maxTokens overlap g (i + (maxTokens - overlap)) with
      | none => rw [hc] at hrec; simp at hrec
      | some rest => simp
    · simp

/-- With a non-positive step, the loop never leaves the first index and no
amount of gas completes it. -/
theorem chunkFixedGas_none (tokens : List (List Char)) (maxTokens overlap : Int)
    (hstep : maxTokens ≤ overlap) (hlen : 0 < tokens.length) :
    ∀ gas (i : Int), i ≤ 0 → chunkFixedGas tokens maxTokens overlap gas i = none := by
  intro gas
  induction gas with
  | zero => intro i _; rfl
  | succ g ih =>
    intro i hi
    simp only [chunkFixedGas]
    rw [if_pos (by omega)]
    rw [ih (i + (maxTokens - overlap)) (by omega)]

/-- C10: chunk with mode fixed terminates for every text iff maxTokens
exceeds overlap; otherwise the sliding-window loop never terminates on any
text. -/
theorem c10_chunk_fixed_termination (text : List Char) (maxTokens overlap : Int) :
    (overlap < maxTokens →
      (chunk text { mode := "fixed", maxTokens := maxTokens, overlap := overlap }).isSome) ∧
    (maxTokens ≤ overlap →
      chunk text { mode := "fixed", maxTokens := maxTokens, overlap := overlap } = none ∧
      ∀ gas, chunkFixedGas (jsSplitWs text) maxTokens overlap gas 0 = none) := by
  have hlen : 0 < (jsSplitWs text).length :=
    List.length_pos.mpr (jsSplitWs_ne_nil text)
  constructor
  · intro hstep
    simp only [chunk, reduceIte]
    exact chunkFixedGas_isSome _ _ _ hstep _ 0 (by omega)
  · intro hstep
    have hnone := chunkFixedGas_none (jsSplitWs text) maxTokens overlap hstep hlen
    constructor
    · simp only [chunk, reduceIte]
      exact hnone _ 0 le_rfl
    · intro gas
      exact hnone gas 0 le_rfl

/-- C10 witness: with three words, maxTokens 2 and overlap 1 the chunker
terminates; with overlap 3 exceeding maxTokens 2 it does not, at any gas. -/
theorem c10_witness :
    (chunk "a b c".data { mode := "fixed", maxTokens := 2, overlap := 1 }).isSome ∧
    chunk "a b c".data { mode := "fixed", maxTokens := 2, overlap := 3 } = none ∧
    chunkFixedGas (jsSplitWs "a b c".data) 2 3 1000 0 = none :=
  ⟨(c10_chunk_fixed_termination "a b c".data 2 1).1 (by decide),
   ((c10_chunk_fixed_termination "a b c".data 2 3).2 (by decide)).1,
   ((c10_chunk_fixed_termination "a b c".data 2 3).2 (by decide)).2 1000⟩

/-! Claims C3 and C8: the Merkle layer. -/

/-- Structural recursion two list elements at a time. -/
theorem twoStepInduction {α : Type} {motive : List α → Prop} (h0 : motive [])
    (h1 : ∀ x, motive [x])
    (h2 : ∀ x y t, motive t → motive (x :: y :: t)) : ∀ l, motive l
  | [] => h0
  | [x] => h1 x
  | x :: y :: t => h2 x y t (twoStepInduction h0 h1 h2 t)

/-- Buffer.compare is antisymmetric. -/
theorem bufCompare_neg (a : Bytes) : ∀ b, bufCompare a b = -bufCompare b a := by
  induction a with
  | nil => intro b; cases b <;> simp [bufCompare]
  | cons x xs ih =>
    intro b
    cases b with
    | nil => simp [bufCompare]
    | cons y ys =>
      simp only [bufCompare]
      by_cases h1 : x < y
      · rw [if_pos h1, if_neg (by omega), if_pos h1]
      · by_cases h2 : y < x
        · rw [if_neg h1, if_pos h2, if_pos h2]; decide
        · rw [if_neg h1, if_neg h2, if_neg h2, if_neg h1]; exact ih ys

/-- Buffer.compare is zero only on equal buffers. -/
theorem bufCompare_eq_zero : ∀ (a b : Bytes), bufCompare a b = 0 → a = b := by
  intro a
  induction a with
  | nil => intro b h; cases b with
    | nil => rfl
    | cons y ys => simp [bufCompare] at h
  | cons x xs ih =>
    intro b h
    cases b with
    | nil => simp [bufCompare] at h
    | cons y ys =>
      simp only [bufCompare] at h
      by_cases h1 : x < y
      · rw [if_pos h1] at h; omega
      · by_cases h2 : y < x
        · rw [if_neg h1, if_pos h2] at h; omega
        · rw [if_neg h1, if_neg h2] at h
          have hxy : x = y := by omega
          rw [hxy, ih ys h]

/-- hashPair canonicalizes pair order. -/
theorem hashPair_comm (a b : Bytes) : hashPair a b = hashPair b a := by
  unfold hashPair
  by_cases h : bufCompare a b > 0
  · rw [if_pos h, if_neg (by rw [bufCompare_neg b a]; omega)]
  · by_cases h0 : bufCompare a b = 0
    · rw [bufCompare_eq_zero a b h0]
    · rw [if_neg h, if_pos (by rw [bufCompare_neg b a]; omega)]

/-- A layer pass halves the node count, rounding up. -/
theorem nextLayer_length : ∀ l : List Bytes, (nextLayer l).length = (l.length + 1) / 2 := by
  intro l
  induction l using twoStepInduction with
  | h0 => simp [nextLayer]
  | h1 x => simp [nextLayer]
  | h2 x y t ih => simp only [nextLayer, List.length_cons, ih]; omega

/-- Swapping the two nodes of an aligned pair leaves the next layer
unchanged: the pair is recanonicalized by hashPair. -/
theorem nextLayer_swap : ∀ (l1 : List Bytes), l1.length % 2 = 0 →
    ∀ (a b : Bytes) (l2 : List Bytes),
      nextLayer (l1 ++ a :: b :: l2) = nextLayer (l1 ++ b :: a :: l2) := by
  intro l1
  induction l1 using twoStepInduction with
  | h0 => intro _ a b l2; simp only [List.nil_append, nextLayer, hashPair_comm a b]
  | h1 x => intro hx; simp at hx
  | h2 x y t ih =>
    intro hlen a b l2
    have ht : t.length % 2 = 0 := by simp only [List.length_cons] at hlen; omega
    simp only [List.cons_append, nextLayer, List.append_eq]
    rw [ih ht a b l2]

theorem buildLayersGo_succ (g : Nat) (l : List Bytes) :
    buildLayersGo (g + 1) l =
      if l.length ≤ 1 then [l] else l :: buildLayersGo g (nextLayer l) := rfl

theorem buildLayersGo_ne_nil (fuel : Nat) (l : List Bytes) : buildLayersGo fuel l ≠ [] := by
  cases fuel with
  | zero => simp [buildLayersGo]
  | succ g => simp only [buildLayersGo]; split_ifs <;> simp

/-- getLastD of a list with at least one element ignores the default. -/
theorem getLastD_irrel {α : Type} (x : α) (l : List α) (d d2 : α) :
    (x :: l).getLastD d = (x :: l).getLastD d2 := by
  cases l with
  | nil => rfl
  | cons y t =>
    have h1 : (x :: y :: t).getLastD d = (y :: t).getLastD x := List.getLastD_cons ..
    have h2 : (x :: y :: t).getLastD d2 = (y :: t).getLastD x := List.getLastD_cons ..
    rw [h1, h2]

set_option maxRecDepth 40000 in
/-- C3 counterexample: the three leaves 00, 01, 02 permuted by swapping the
last two give a different Merkle root, so the root is not invariant under
arbitrary leaf permutations. -/
theorem c3_counterexample :
    ([[0], [1], [2]] : List Bytes).Perm [[0], [2], [1]] ∧
    (buildMerkleTree [[0], [1], [2]]).root ≠ (buildMerkleTree [[0], [2], [1]]).root := by
  constructor
  · exact List.Perm.cons _ (List.Perm.swap _ _ _)
  · decide

/-- C3 as amended: only the canonicalized pair order is immaterial: swapping
the two leaves of an aligned pair (positions 2i and 2i+1) preserves the
root; arbitrary permutations of three or more leaves may change it. -/
theorem c3_pair_swap_root (l1 : List Bytes) (a b : Bytes) (l2 : List Bytes)
    (h : l1.length % 2 = 0) :
    (buildMerkleTree (l1 ++ a :: b :: l2)).root
      = (buildMerkleTree (l1 ++ b :: a :: l2)).root := by
  have hlen : (l1 ++ b :: a :: l2).length = (l1 ++ a :: b :: l2).length := by simp
  have hlen2 : 2 ≤ (l1 ++ a :: b :: l2).length := by
    simp only [List.length_append, List.length_cons]; omega
  have hswap := nextLayer_swap l1 h a b l2
  simp only [buildMerkleTree, buildLayers]
  rw [if_neg (by omega), if_neg (by omega), if_neg (by omega), if_neg (by omega)]
  obtain ⟨m, hm⟩ : ∃ m, (l1 ++ a :: b :: l2).length = m + 2 :=
    ⟨(l1 ++ a :: b :: l2).length - 2, by omega⟩
  rw [hm, hlen, hm]
  rw [show m + 2 = (m + 1) + 1 from rfl,
    buildLayersGo_succ (m + 1) (l1 ++ a :: b :: l2),
    buildLayersGo_succ (m + 1) (l1 ++ b :: a :: l2)]
  rw [if_neg (by omega), if_neg (by omega), hswap]
  obtain ⟨r, rs, hr⟩ :=
    List.exists_cons_of_ne_nil (buildLayersGo_ne_nil (m + 1) (nextLayer (l1 ++ b :: a :: l2)))
  rw [hr]
  simp only [List.getLastD_cons]

/-- C3 witness: swapping a two-leaf tree preserves the root. -/
theorem c3_witness :
    (buildMerkleTree ([[0], [1]] : List Bytes)).root
      = (buildMerkleTree ([[1], [0]] : List Bytes)).root :=
  c3_pair_swap_root [] [0] [1] [] (by decide)

/-- Position i of the next layer in terms of the current layer: the left
neighbor pairs an odd index, the right neighbor an even one, and the
unpaired last node pairs with itself. -/
theorem nextLayer_getD : ∀ (l : List Bytes) (i : Nat), i < l.length →
    (nextLayer l).getD (i / 2) [] =
      if i % 2 = 1 then hashPair (l.getD (i - 1) []) (l.getD i [])
      else if i + 1 < l.length then hashPair (l.getD i []) (l.getD (i + 1) [])
      else hashPair (l.getD i []) (l.getD i []) := by
  intro l
  induction l using twoStepInduction with
  | h0 => intro i hi; simp at hi
  | h1 x =>
    intro i hi
    have hi0 : i = 0 := by simp at hi; omega
    subst hi0
    simp [nextLayer]
  | h2 x y t ih =>
    intro i hi
    match i with
    | 0 =>
      have c1 : ¬ ((0 : Nat) % 2 = 1) := by omega
      have c2 : 0 + 1 < (x :: y :: t).length := by
        simp only [List.length_cons]; omega
      rw [if_neg c1, if_pos c2]
      rfl
    | 1 =>
      have c1 : (1 : Nat) % 2 = 1 := by omega
      rw [if_pos c1]
      rfl
    | (k + 2) =>
      have hk : k < t.length := by simp only [List.length_cons] at hi; omega
      have h2 : (k + 2) / 2 = k / 2 + 1 := by omega
      have hmod : (k + 2) % 2 = k % 2 := by omega
      rw [h2, hmod]
      simp only [nextLayer, List.getD_cons_succ]
      rw [ih k hk]
      by_cases hodd : k % 2 = 1
      · rw [if_pos hodd, if_pos hodd]
        have h3 : k + 2 - 1 = (k - 1) + 2 := by omega
        rw [h3]
        simp only [List.getD_cons_succ]
      · rw [if_neg hodd, if_neg hodd]
        by_cases hlt : k + 1 < t.length
        · have c3 : k + 2 + 1 < (x :: y :: t).length := by
            simp only [List.length_cons]; omega
          rw [if_pos hlt, if_pos c3]
        · have c3 : ¬ (k + 2 + 1 < (x :: y :: t).length) := by
            simp only [List.length_cons]; omega
          rw [if_neg hlt, if_neg c3]

/-- Unfolding step of the verify fold. -/
theorem foldProof_cons (s : ProofStep) (ps : List ProofStep) (x : Bytes) :
    foldProof (s :: ps) x =
      foldProof ps
        (match s.position with
          | .left => hashPair s.hash x
          | .right => hashPair x s.hash) := rfl

/-- The verify fold over the proof built from the layer stack reconstructs
the single node of the last layer. -/
theorem merkleVerifyAux : ∀ (fuel : Nat) (l : List Bytes) (i : Nat),
    i < l.length → l.length ≤ fuel →
    foldProof (getMerkleProof (buildLayersGo fuel l) i) (l.getD i []) =
      ((buildLayersGo fuel l).getLastD []).headD zeros32 := by
  intro fuel
  induction fuel with
  | zero => intro l i hi hl; omega
  | succ g ih =>
    intro l i hi hl
    simp only [buildLayersGo]
    by_cases h1 : l.length ≤ 1
    · rw [if_pos h1]
      have hi0 : i = 0 := by omega
      subst hi0
      cases l with
      | nil => simp at hi
      | cons x t => simp [getMerkleProof, foldProof]
    · rw [if_neg h1]
      obtain ⟨r, rs, hr⟩ :=
        List.exists_cons_of_ne_nil (buildLayersGo_ne_nil g (nextLayer l))
      rw [hr]
      simp only [getMerkleProof]
      rw [foldProof_cons]
      have hnl : (nextLayer l).length = (l.length + 1) / 2 := nextLayer_length l
      have hrec := ih (nextLayer l) (i / 2) (by omega) (by omega)
      rw [hr] at hrec
      have hcomb :
          (match
            (if (if i % 2 == 1 then i - 1 else i + 1) < l.length then
              ProofStep.mk (l.getD (if i % 2 == 1 then i - 1 else i + 1) [])
                (if i % 2 == 1 then .left else .right)
            else
              ProofStep.mk (l.getD i []) (if i % 2 == 1 then .left else .right)).position
            with
            | ProofPos.left =>
              hashPair
                (if (if i % 2 == 1 then i - 1 else i + 1) < l.length then
                  ProofStep.mk (l.getD (if i % 2 == 1 then i - 1 else i + 1) [])
                    (if i % 2 == 1 then .left else .right)
                else
                  ProofStep.mk (l.getD i []) (if i % 2 == 1 then .left else .right)).hash
                (l.getD i [])
            | ProofPos.right =>
              hashPair (l.getD i [])
                (if (if i % 2 == 1 then i - 1 else i + 1) < l.length then
                  ProofStep.mk (l.getD (if i % 2 == 1 then i - 1 else i + 1) [])
                    (if i % 2 == 1 then .left else .right)
                  else
                    ProofStep.mk (l.getD i []) (if i % 2 == 1 then .left else .right)).hash)
            = (nextLayer l).getD (i / 2) [] := by
        rw [nextLayer_getD l i hi]
        simp only [beq_iff_eq]
        split_ifs <;> first | rfl | omega
      rw [hcomb, hrec]
      have e1 : (l :: r :: rs).getLastD ([] : List Bytes) = (r :: rs).getLastD l :=
        List.getLastD_cons ..
      have e2 : (r :: rs).getLastD l = (r :: rs).getLastD ([] : List Bytes) :=
        getLastD_irrel ..
      rw [e1, e2]

/-- C8: for every nonempty leaf list and every index, the generated proof
verifies against the generated root, the unpaired odd nodes included. -/
theorem c8_merkle_proof_verifies (leaves : List Bytes) (i : Nat)
    (hne : leaves ≠ []) (hi : i < leaves.length) :
    verifyMerkleProof (leaves.getD i [])
      (getMerkleProof (buildMerkleTree leaves).layers i)
      (buildMerkleTree leaves).root = true := by
  simp only [buildMerkleTree]
  rw [if_neg (fun h => hne (List.length_eq_zero.mp h))]
  by_cases h1 : leaves.length = 1
  · rw [if_pos h1]
    have hi0 : i = 0 := by omega
    subst hi0
    cases leaves with
    | nil => simp at hi
    | cons x t =>
      have ht : t = [] := by
        simp only [List.length_cons] at h1
        exact List.length_eq_zero.mp (by omega)
      subst ht
      simp [getMerkleProof, verifyMerkleProof, foldProof]
  · rw [if_neg h1]
    simp only [verifyMerkleProof, buildLayers]
    rw [merkleVerifyAux leaves.length leaves i hi le_rfl]
    exact beq_self_eq_true _

/-- C8 witness: the odd three-leaf tree at the unpaired index. -/
theorem c8_witness :
    verifyMerkleProof (([[0], [1], [2]] : List Bytes).getD 2 [])
      (getMerkleProof (buildMerkleTree [[0], [1], [2]]).layers 2)
      (buildMerkleTree [[0], [1], [2]]).root = true :=
  c8_merkle_proof_verifies [[0], [1], [2]] 2 (by decide) (by decide)

/-! Claim C2: the index algebra invariant.  Generic lemmas about the Map
embedding first. -/

theorem jsGet_set_self {α β : Type} [DecidableEq α] (m : List (α × β)) (k : α) (v : β) :
    jsGet (jsSet m k v) k = some v := by
  induction m with
  | nil => simp [jsSet, jsGet]
  | cons p t ih =>
    by_cases h : p.1 = k
    · simp [jsSet, h, jsGet]
    · simp [jsSet, h, jsGet, ih]

theorem jsGet_set_ne {α β : Type} [DecidableEq α] (m : List (α × β)) (k k2 : α) (v : β)
    (h : k2 ≠ k) : jsGet (jsSet m k v) k2 = jsGet m k2 := by
  have hne : ¬ k = k2 := fun h2 => h h2.symm
  induction m with
  | nil => simp [jsSet, jsGet, hne]
  | cons p t ih =>
    simp only [jsSet]
    by_cases hp : p.1 = k
    · rw [if_pos hp]
      simp only [jsGet]
      rw [if_neg hne, if_neg (hp ▸ hne)]
    · rw [if_neg hp]
      simp only [jsGet]
      by_cases hp2 : p.1 = k2
      · rw [if_pos hp2, if_pos hp2]
      · rw [if_neg hp2, if_neg hp2, ih]

theorem jsGet_none_iff {α β : Type} [DecidableEq α] (m : List (α × β)) (k : α) :
    jsGet m k = none ↔ k ∉ m.map (·.1) := by
  induction m with
  | nil => simp [jsGet]
  | cons p t ih =>
    by_cases h : p.1 = k
    · simp [jsGet, h]
    · simp only [jsGet, if_neg h, ih, List.map_cons, List.mem_cons]
      constructor
      · intro hn
        rw [not_or]
        exact ⟨fun he => h he.symm, hn⟩
      · intro hn
        exact (not_or.mp hn).2

theorem jsGet_mem {α β : Type} [DecidableEq α] :
    ∀ (m : List (α × β)) (k : α) (v : β), jsGet m k = some v → (k, v) ∈ m := by
  intro m k v
  induction m with
  | nil => intro h; simp [jsGet] at h
  | cons p t ih =>
    intro h
    by_cases hp : p.1 = k
    · simp only [jsGet, if_pos hp, Option.some.injEq] at h
      exact List.mem_cons.mpr (Or.inl (by cases p; cases hp; cases h; rfl))
    · simp only [jsGet, if_neg hp] at h
      exact List.mem_cons_of_mem _ (ih h)

theorem jsSet_fresh_append {α β : Type} [DecidableEq α] :
    ∀ (m : List (α × β)) (k : α) (v : β), jsGet m k = none →
      jsSet m k v = m ++ [(k, v)] := by
  intro m k v
  induction m with
  | nil => intro _; rfl
  | cons p t ih =>
    intro h
    by_cases hp : p.1 = k
    · simp [jsGet, hp] at h
    · simp only [jsGet, if_neg hp] at h
      simp [jsSet, hp, ih h]

theorem jsSet_keys_of_mem {α β : Type} [DecidableEq α] :
    ∀ (m : List (α × β)) (k : α) (v : β), k ∈ m.map (·.1) →
      (jsSet m k v).map (·.1) = m.map (·.1) := by
  intro m k v
  induction m with
  | nil => intro h; simp at h
  | cons p t ih =>
    intro h
    by_cases hp : p.1 = k
    · simp [jsSet, hp]
    · simp only [List.map_cons, List.mem_cons] at h
      rcases h with he | hm
      · exact absurd he.symm hp
      · simp only [jsSet, if_neg hp, List.map_cons, ih hm]

theorem jsSet_keys_of_not_mem {α β : Type} [DecidableEq α] (m : List (α × β)) (k : α) (v : β)
    (h : k ∉ m.map (·.1)) : (jsSet m k v).map (·.1) = m.map (·.1) ++ [k] := by
  rw [jsSet_fresh_append m k v ((jsGet_none_iff m k).mpr h)]
  simp

theorem jsSet_keys_nodup {α β : Type} [DecidableEq α] (m : List (α × β)) (k : α) (v : β)
    (h : (m.map (·.1)).Nodup) : ((jsSet m k v).map (·.1)).Nodup := by
  by_cases hm : k ∈ m.map (·.1)
  · rw [jsSet_keys_of_mem m k v hm]; exact h
  · rw [jsSet_keys_of_not_mem m k v hm]
    simp [List.nodup_append, h, hm]

theorem jsDelete_sublist {α β : Type} [DecidableEq α] (m : List (α × β)) (k : α) :
    List.Sublist (jsDelete m k) m := by
  induction m with
  | nil => simp [jsDelete]
  | cons p t ih =>
    by_cases hp : p.1 = k
    · simp only [jsDelete, if_pos hp]
      exact List.sublist_cons_self p t
    · simp only [jsDelete, if_neg hp]
      exact List.Sublist.cons₂ p ih

theorem jsGet_delete_self {α β : Type} [DecidableEq α] :
    ∀ (m : List (α × β)) (k : α), (m.map (·.1)).Nodup →
      jsGet (jsDelete m k) k = none := by
  intro m k
  induction m with
  | nil => intro _; rfl
  | cons p t ih =>
    intro hnd
    simp only [List.map_cons, List.nodup_cons] at hnd
    by_cases hp : p.1 = k
    · simp only [jsDelete, if_pos hp]
      rw [jsGet_none_iff]
      rw [hp] at hnd
      exact hnd.1
    · simp only [jsDelete, if_neg hp, jsGet, if_neg hp]
      exact ih hnd.2

theorem jsGet_delete_ne {α β : Type} [DecidableEq α] (m : List (α × β)) (k k2 : α)
    (h : k2 ≠ k) : jsGet (jsDelete m k) k2 = jsGet m k2 := by
  induction m with
  | nil => rfl
  | cons p t ih =>
    by_cases hp : p.1 = k
    · simp only [jsDelete, if_pos hp, jsGet]
      rw [if_neg (hp ▸ fun h2 => h h2.symm)]
    · simp only [jsDelete, if_neg hp, jsGet]
      by_cases hp2 : p.1 = k2
      · rw [if_pos hp2, if_pos hp2]
      · rw [if_neg hp2, if_neg hp2, ih]

theorem jsDelete_countP {α β : Type} [DecidableEq α] (p : α × β → Bool) :
    ∀ (m : List (α × β)) (k : α) (v : β), jsGet m k = some v →
      m.countP p = (jsDelete m k).countP p + (if p (k, v) then 1 else 0) := by
  intro m k v
  induction m with
  | nil => intro h; simp [jsGet] at h
  | cons q t ih =>
    intro h
    by_cases hq : q.1 = k
    · simp only [jsGet, if_pos hq, Option.some.injEq] at h
      simp only [jsDelete, if_pos hq]
      have hqv : q = (k, v) := by cases q; cases hq; cases h; rfl
      rw [hqv, List.countP_cons]
    · simp only [jsGet, if_neg hq] at h
      simp only [jsDelete, if_neg hq]
      rw [List.countP_cons, List.countP_cons, ih h]
      omega

theorem jsDelete_length {α β : Type} [DecidableEq α] :
    ∀ (m : List (α × β)) (k : α) (v : β), jsGet m k = some v →
      m.length = (jsDelete m k).length + 1 := by
  intro m k v
  induction m with
  | nil => intro h; simp [jsGet] at h
  | cons q t ih =>
    intro h
    by_cases hq : q.1 = k
    · simp [jsDelete, hq]
    · simp only [jsGet, if_neg hq] at h
      simp only [jsDelete, if_neg hq, List.length_cons, ih h]

theorem jsDelete_map_sum {α β : Type} [DecidableEq α] (f : α × β → Int) :
    ∀ (m : List (α × β)) (k : α) (v : β), jsGet m k = some v →
      (m.map f).sum = ((jsDelete m k).map f).sum + f (k, v) := by
  intro m k v
  induction m with
  | nil => intro h; simp [jsGet] at h
  | cons q t ih =>
    intro h
    by_cases hq : q.1 = k
    · simp only [jsGet, if_pos hq, Option.some.injEq] at h
      have : q = (k, v) := by cases q; cases hq; cases h; rfl
      simp [jsDelete, hq, this]
      omega
    · simp only [jsGet, if_neg hq] at h
      simp only [jsDelete, if_neg hq, List.map_cons, List.sum_cons, ih h]
      omega

theorem jsSet_mem_cases {α β : Type} [DecidableEq α] :
    ∀ (m : List (α × β)) (k : α) (v : β) (q : α × β), q ∈ jsSet m k v →
      q = (k, v) ∨ q ∈ m := by
  intro m k v
  induction m with
  | nil => intro q hq; simp [jsSet] at hq; exact Or.inl hq
  | cons p t ih =>
    intro q hq
    by_cases hp : p.1 = k
    · simp only [jsSet, if_pos hp, List.mem_cons] at hq
      rcases hq with he | hm
      · exact Or.inl he
      · exact Or.inr (List.mem_cons_of_mem _ hm)
    · simp only [jsSet, if_neg hp, List.mem_cons] at hq
      rcases hq with he | hm
      · exact Or.inr (he ▸ List.mem_cons_self p t)
      · rcases ih q hm with h1 | h2
        · exact Or.inl h1
        · exact Or.inr (List.mem_cons_of_mem _ h2)

/-- The term-frequency fold keeps counts positive and keys unique. -/
theorem termFrequencies_aux :
    ∀ (tokens : List (List Char)) (m : List (List Char × Nat)),
      (∀ q ∈ m, 0 < q.2) → ((m.map (·.1)).Nodup) →
        (∀ q ∈ tokens.foldl (fun tf t => jsSet tf t (jsGetD tf t 0 + 1)) m, 0 < q.2) ∧
        (((tokens.foldl (fun tf t => jsSet tf t (jsGetD tf t 0 + 1)) m).map (·.1)).Nodup) := by
  intro tokens
  induction tokens with
  | nil => intro m hpos hnd; exact ⟨hpos, hnd⟩
  | cons tk tks ih =>
    intro m hpos hnd
    simp only [List.foldl_cons]
    refine ih (jsSet m tk (jsGetD m tk 0 + 1)) ?_ (jsSet_keys_nodup m tk _ hnd)
    intro q hq
    rcases jsSet_mem_cases m tk _ q hq with he | hm
    · rw [he]; omega
    · exact hpos q hm

theorem termFrequencies_pos (tokens : List (List Char)) :
    ∀ q ∈ termFrequencies tokens, 0 < q.2 :=
  (termFrequencies_aux tokens [] (by simp) (by simp)).1

theorem termFrequencies_keys_nodup (tokens : List (List Char)) :
    ((termFrequencies tokens).map (·.1)).Nodup :=
  (termFrequencies_aux tokens [] (by simp) (by simp)).2

/-- For positive-valued maps, a positive default read is key membership. -/
theorem getD_pos_iff_mem_keys (m : List (List Char × Nat))
    (hpos : ∀ q ∈ m, 0 < q.2) (t : List Char) :
    0 < jsGetD m t 0 ↔ t ∈ m.map (·.1) := by
  unfold jsGetD
  cases hg : jsGet m t with
  | none =>
    simp only [Option.getD_none]
    constructor
    · omega
    · intro hm
      exact absurd hg (by rw [jsGet_none_iff] at hg; exact absurd hm hg)
  | some v =>
    simp only [Option.getD_some]
    constructor
    · intro _
      exact List.mem_map.mpr ⟨(t, v), jsGet_mem m t v hg, rfl⟩
    · intro _
      exact hpos (t, v) (jsGet_mem m t v hg)

/-- The df increment fold of addDocument, pointwise. -/
theorem incr_fold_get (ks : List (List Char)) (hnd : ks.Nodup) :
    ∀ (m : List (List Char × JsNum)) (t : List Char),
      jsGet (ks.foldl (fun m2 term => jsSet m2 term (.num (jsOr0 (jsGet m2 term) + 1))) m) t
        = if t ∈ ks then some (.num (jsOr0 (jsGet m t) + 1)) else jsGet m t := by
  induction ks with
  | nil => intro m t; simp
  | cons k ks ih =>
    intro m t
    simp only [List.foldl_cons]
    have hnd2 := List.nodup_cons.mp hnd
    rw [ih hnd2.2]
    by_cases hm : t ∈ ks
    · rw [if_pos hm, if_pos (List.mem_cons_of_mem _ hm)]
      have hne : t ≠ k := fun he => hnd2.1 (he ▸ hm)
      rw [jsGet_set_ne m k t _ hne]
    · rw [if_neg hm]
      by_cases hk : t = k
      · subst hk
        rw [if_pos (List.mem_cons_self t ks), jsGet_set_self]
      · rw [jsGet_set_ne m k t _ hk, if_neg (by simp [hk, hm])]

/-- The df increment fold keeps keys unique. -/
theorem incr_fold_keys_nodup (ks : List (List Char)) :
    ∀ (m : List (List Char × JsNum)), (m.map (·.1)).Nodup →
      (((ks.foldl (fun m2 term => jsSet m2 term (.num (jsOr0 (jsGet m2 term) + 1))) m)).map (·.1)).Nodup := by
  induction ks with
  | nil => intro m h; exact h
  | cons k ks ih =>
    intro m h
    simp only [List.foldl_cons]
    exact ih _ (jsSet_keys_nodup m k _ h)

/-- One step of the df decrement fold of removeDocument. -/
theorem dec_step_keys_nodup (m : List (List Char × JsNum)) (k : List Char)
    (h : (m.map (·.1)).Nodup) :
    (((if jsLe1 (jsGet m k) then jsDelete m k
        else jsSet m k (jsSub1 (jsGet m k))).map (·.1))).Nodup := by
  split_ifs
  · exact ((jsDelete_sublist m k).map (·.1)).nodup h
  · exact jsSet_keys_nodup m k _ h

/-- The df decrement fold of removeDocument, pointwise. -/
theorem dec_fold_get (ks : List (List Char)) (hnd : ks.Nodup) :
    ∀ (m : List (List Char × JsNum)), (m.map (·.1)).Nodup → ∀ (t : List Char),
      jsGet (ks.foldl (fun m2 term =>
          if jsLe1 (jsGet m2 term) then jsDelete m2 term
          else jsSet m2 term (jsSub1 (jsGet m2 term))) m) t
        = if t ∈ ks then
            (if jsLe1 (jsGet m t) then none else some (jsSub1 (jsGet m t)))
          else jsGet m t := by
  induction ks with
  | nil => intro m _ t; simp
  | cons k ks ih =>
    intro m hm t
    simp only [List.foldl_cons]
    have hnd2 := List.nodup_cons.mp hnd
    rw [ih hnd2.2 _ (dec_step_keys_nodup m k hm)]
    by_cases hks : t ∈ ks
    · rw [if_pos hks, if_pos (List.mem_cons_of_mem _ hks)]
      have hne : t ≠ k := fun he => hnd2.1 (he ▸ hks)
      have hstep : jsGet (if jsLe1 (jsGet m k) then jsDelete m k
          else jsSet m k (jsSub1 (jsGet m k))) t = jsGet m t := by
        split_ifs
        · exact jsGet_delete_ne m k t hne
        · exact jsGet_set_ne m k t _ hne
      rw [hstep]
    · rw [if_neg hks]
      by_cases hk : t = k
      · subst hk
        rw [if_pos (List.mem_cons_self t ks)]
        have hstep : jsGet (if jsLe1 (jsGet m t) then jsDelete m t
            else jsSet m t (jsSub1 (jsGet m t))) t
            = if jsLe1 (jsGet m t) then none else some (jsSub1 (jsGet m t)) := by
          split_ifs
          · exact jsGet_delete_self m t hm
          · exact jsGet_set_self m t _
        rw [hstep]
      · have hstep : jsGet (if jsLe1 (jsGet m k) then jsDelete m k
            else jsSet m k (jsSub1 (jsGet m k))) t = jsGet m t := by
          split_ifs
          · exact jsGet_delete_ne m k t hk
          · exact jsGet_set_ne m k t _ hk
        rw [hstep, if_neg (by simp [hk, hks])]

/-- The df decrement fold keeps keys unique. -/
theorem dec_fold_keys_nodup (ks : List (List Char)) :
    ∀ (m : List (List Char × JsNum)), (m.map (·.1)).Nodup →
      (((ks.foldl (fun m2 term =>
          if jsLe1 (jsGet m2 term) then jsDelete m2 term
          else jsSet m2 term (jsSub1 (jsGet m2 term))) m)).map (·.1)).Nodup := by
  induction ks with
  | nil => intro m h; exact h
  | cons k ks ih =>
    intro m h
    simp only [List.foldl_cons]
    exact ih _ (dec_step_keys_nodup m k h)

theorem inv_create (opts : QueryEngineOpts) : EngineInv (QueryEngine.create opts) := by
  refine ⟨?_, ?_, ?_, ?_, ?_, ?_, ?_⟩ <;> simp [QueryEngine.create, jsGet, dfCount]

theorem inv_add (e : QueryEngine) (ep : Episode) (h : EngineInv e) :
    EngineInv (e.addDocument ep) := by
  unfold QueryEngine.addDocument
  by_cases hmem : (jsGet e.docs ep.id).isSome
  · rw [if_pos hmem]; exact h
  · rw [if_neg hmem]
    have hnone : jsGet e.docs ep.id = none := by
      cases hg : jsGet e.docs ep.id with
      | none => rfl
      | some v => rw [hg] at hmem; simp at hmem
    have htfpos := termFrequencies_pos ep.tokens
    have htfnd := termFrequencies_keys_nodup ep.tokens
    have hidfresh : ep.id ∉ e.docs.map (·.1) := (jsGet_none_iff _ _).mp hnone
    have happend := jsSet_fresh_append e.docs ep.id
      (⟨ep.tokens.length, termFrequencies ep.tokens, ep.createdAt, ep.importance,
        ep.lastAccessedAt, ep.tags, ep.type, ep.supersededBy⟩ : DocEntry) hnone
    refine ⟨?_, ?_, ?_, ?_, ?_, ?_, ?_⟩
    · -- df_eq
      intro t
      dsimp only
      rw [incr_fold_get _ htfnd e.df t, happend]
      have hcount : dfCount (e.docs ++
          [(ep.id, (⟨ep.tokens.length, termFrequencies ep.tokens, ep.createdAt,
            ep.importance, ep.lastAccessedAt, ep.tags, ep.type,
            ep.supersededBy⟩ : DocEntry))]) t
          = dfCount e.docs t
            + (if 0 < jsGetD (termFrequencies ep.tokens) t 0 then 1 else 0) := by
        simp only [dfCount, List.countP_append, List.countP_cons, List.countP_nil]
        simp [decide_eq_true_eq]
      by_cases hks : t ∈ (termFrequencies ep.tokens).map (·.1)
      · have hpos : 0 < jsGetD (termFrequencies ep.tokens) t 0 :=
          (getD_pos_iff_mem_keys _ htfpos t).mpr hks
        rw [if_pos hks, hcount, if_pos hpos, h.df_eq t]
        by_cases h0 : dfCount e.docs t = 0
        · rw [if_pos h0, h0, if_neg (by omega)]
          simp [jsOr0]
        · rw [if_neg h0, if_neg (by omega)]
          simp only [jsOr0, Option.some.injEq, JsNum.num.injEq]
          push_cast
          ring
      · have hnpos : ¬ 0 < jsGetD (termFrequencies ep.tokens) t 0 :=
          fun hp => hks ((getD_pos_iff_mem_keys _ htfpos t).mp hp)
        rw [if_neg hks, hcount, if_neg hnpos, Nat.add_zero]
        exact h.df_eq t
    · -- df_nodup
      dsimp only
      exact incr_fold_keys_nodup _ e.df h.df_nodup
    · -- total_docs
      dsimp only
      rw [happend, h.total_docs]
      simp only [List.length_append, List.length_singleton]
      push_cast
      ring
    · -- total_len
      dsimp only
      rw [happend, h.total_len]
      simp [List.map_append]
    · -- docs_nodup
      dsimp only
      rw [happend]
      simp [List.nodup_append, h.docs_nodup, hidfresh]
    · -- tf_pos
      dsimp only
      intro p hp
      rw [happend] at hp
      rcases List.mem_append.mp hp with hold | hnew
      · exact h.tf_pos p hold
      · simp only [List.mem_singleton] at hnew
        rw [hnew]
        exact htfpos
    · -- tf_nodup
      dsimp only
      intro p hp
      rw [happend] at hp
      rcases List.mem_append.mp hp with hold | hnew
      · exact h.tf_nodup p hold
      · simp only [List.mem_singleton] at hnew
        rw [hnew]
        exact htfnd

theorem inv_remove (e : QueryEngine) (id : String) (h : EngineInv e) :
    EngineInv (e.removeDocument id) := by
  unfold QueryEngine.removeDocument
  cases hg : jsGet e.docs id with
  | none => exact h
  | some doc =>
    have hdocmem : (id, doc) ∈ e.docs := jsGet_mem _ _ _ hg
    have htfnd : (doc.tf.map (·.1)).Nodup := h.tf_nodup (id, doc) hdocmem
    have htfpos : ∀ q ∈ doc.tf, 0 < q.2 := h.tf_pos (id, doc) hdocmem
    refine ⟨?_, ?_, ?_, ?_, ?_, ?_, ?_⟩
    · -- df_eq
      intro t
      dsimp only
      rw [dec_fold_get _ htfnd e.df h.df_nodup t]
      have hdelc := jsDelete_countP
        (fun p => decide (0 < jsGetD p.2.tf t 0)) e.docs id doc hg
      by_cases hks : t ∈ doc.tf.map (·.1)
      · rw [if_pos hks]
        have hpos : 0 < jsGetD doc.tf t 0 := (getD_pos_iff_mem_keys _ htfpos t).mpr hks
        have hc1 : dfCount e.docs t = dfCount (jsDelete e.docs id) t + 1 := by
          simp only [dfCount]
          rw [hdelc]
          simp [hpos]
        have hcne : ¬ (dfCount e.docs t = 0) := by omega
        rw [h.df_eq t, if_neg hcne]
        by_cases hc2 : dfCount (jsDelete e.docs id) t = 0
        · have hle : jsLe1 (some (.num (dfCount e.docs t : Int))) = true := by
            simp only [jsLe1, decide_eq_true_eq]
            omega
          rw [if_pos hle, if_pos hc2]
        · have hle : ¬ (jsLe1 (some (.num (dfCount e.docs t : Int))) = true) := by
            simp only [jsLe1, decide_eq_true_eq]
            omega
          rw [if_neg hle, if_neg hc2]
          simp only [jsSub1, Option.some.injEq, JsNum.num.injEq]
          push_cast
          omega
      · rw [if_neg hks]
        have hnpos : ¬ 0 < jsGetD doc.tf t 0 :=
          fun hp => hks ((getD_pos_iff_mem_keys _ htfpos t).mp hp)
        have hc : dfCount (jsDelete e.docs id) t = dfCount e.docs t := by
          simp only [dfCount]
          rw [hdelc]
          simp [hnpos]
        rw [h.df_eq t, hc]
    · -- df_nodup
      dsimp only
      exact dec_fold_keys_nodup _ e.df h.df_nodup
    · -- total_docs
      dsimp only
      have := jsDelete_length e.docs id doc hg
      rw [h.total_docs]
      push_cast [this]
      ring
    · -- total_len
      dsimp only
      have := jsDelete_map_sum (fun p => (p.2.dl : Int)) e.docs id doc hg
      rw [h.total_len, this]
      ring
    · -- docs_nodup
      dsimp only
      exact ((jsDelete_sublist e.docs id).map (·.1)).nodup h.docs_nodup
    · -- tf_pos
      dsimp only
      intro p hp
      exact h.tf_pos p ((jsDelete_sublist e.docs id).mem hp)
    · -- tf_nodup
      dsimp only
      intro p hp
      exact h.tf_nodup p ((jsDelete_sublist e.docs id).mem hp)

theorem inv_applyOps (opts : QueryEngineOpts) (ops : List EngineOp) :
    EngineInv (applyOps ops (QueryEngine.create opts)) := by
  suffices hgen : ∀ (e : QueryEngine), EngineInv e → EngineInv (applyOps ops e) from
    hgen _ (inv_create opts)
  unfold applyOps
  induction ops with
  | nil => intro e he; exact he
  | cons op ops ih =>
    intro e he
    simp only [List.foldl_cons]
    refine ih _ ?_
    cases op with
    | add ep => exact inv_add e ep he
    | remove id => exact inv_remove e id he

/-- C2: after any sequence of addDocument and removeDocument calls on a
freshly constructed QueryEngine, every term present in df counts exactly
the indexed documents whose tf map gives it a positive count, totalDocs is
the number of indexed documents, and totalLength is the sum of the stored
document lengths. -/
theorem c2_index_algebra (opts : QueryEngineOpts) (ops : List EngineOp) :
    (∀ t ∈ jsKeys (applyOps ops (QueryEngine.create opts)).df,
      jsGet (applyOps ops (QueryEngine.create opts)).df t
        = some (.num (dfCount (applyOps ops (QueryEngine.create opts)).docs t))) ∧
    (applyOps ops (QueryEngine.create opts)).totalDocs
      = ((applyOps ops (QueryEngine.create opts)).docs.length : Int) ∧
    (applyOps ops (QueryEngine.create opts)).totalLength
      = ((applyOps ops (QueryEngine.create opts)).docs.map fun p => (p.2.dl : Int)).sum := by
  have hinv := inv_applyOps opts ops
  refine ⟨?_, hinv.total_docs, hinv.total_len⟩
  intro t ht
  have hdf := hinv.df_eq t
  by_cases h0 : dfCount (applyOps ops (QueryEngine.create opts)).docs t = 0
  · rw [if_pos h0] at hdf
    have hnot := (jsGet_none_iff _ _).mp hdf
    rw [jsKeys] at ht
    exact absurd ht hnot
  · rw [if_neg h0] at hdf
    exact hdf

/-- C2 witness: one concrete add, checked for the term hello. -/
theorem c2_witness :
    jsGet (applyOps [.add c2ep] (QueryEngine.create {})).df "hello".data
      = some (.num (dfCount (applyOps [.add c2ep] (QueryEngine.create {})).docs "hello".data)) ∧
    (applyOps [.add c2ep] (QueryEngine.create {})).totalDocs
      = ((applyOps [.add c2ep] (QueryEngine.create {})).docs.length : Int) ∧
    (applyOps [.add c2ep] (QueryEngine.create {})).totalLength
      = ((applyOps [.add c2ep] (QueryEngine.create {})).docs.map fun p => (p.2.dl : Int)).sum :=
  ⟨(c2_index_algebra {} [.add c2ep]).1 "hello".data (by decide),
   (c2_index_algebra {} [.add c2ep]).2.1,
   (c2_index_algebra {} [.add c2ep]).2.2⟩

theorem jsSortInsert_mem {α : Type} (lt : α → α → Bool) (x : α) :
    ∀ (l : List α) (z : α), z ∈ jsSortInsert lt x l ↔ z = x ∨ z ∈ l := by
  intro l
  induction l with
  | nil => intro z; simp [jsSortInsert]
  | cons y ys ih =>
    intro z
    simp only [jsSortInsert]
    split_ifs
    · simp [List.mem_cons]
    · simp only [List.mem_cons, ih]
      constructor
      · rintro (rfl | hz)
        · exact Or.inr (Or.inl rfl)
        · rcases hz with rfl | hz
          · exact Or.inl rfl
          · exact Or.inr (Or.inr hz)
      · rintro (rfl | rfl | hz)
        · exact Or.inr (Or.inl rfl)
        · exact Or.inl rfl
        · exact Or.inr (Or.inr hz)

theorem jsSortInsert_sorted {α : Type} (key : α → ℚ) (x : α) :
    ∀ (l : List α), l.Sorted (fun a b => key b ≤ key a) →
      (jsSortInsert (fun a b => decide (key b < key a)) x l).Sorted
        (fun a b => key b ≤ key a) := by
  intro l
  induction l with
  | nil => intro _; simp [jsSortInsert]
  | cons y ys ih =>
    intro h
    obtain ⟨hy, hys⟩ := List.sorted_cons.mp h
    simp only [jsSortInsert]
    split_ifs with hc
    · have hyx : key y < key x := of_decide_eq_true hc
      refine List.sorted_cons.mpr ⟨?_, h⟩
      intro b hb
      rcases List.mem_cons.mp hb with rfl | hbys
      · exact le_of_lt hyx
      · exact le_trans (hy b hbys) (le_of_lt hyx)
    · have hxy : ¬ key y < key x := of_decide_eq_false (by simpa using hc)
      refine List.sorted_cons.mpr ⟨?_, ih hys⟩
      intro b hb
      rcases (jsSortInsert_mem _ x ys b).mp hb with rfl | hbys
      · exact le_of_not_lt hxy
      · exact hy b hbys

theorem jsSort_sorted {α : Type} (key : α → ℚ) (l : List α) :
    (jsSort (fun a b => decide (key b < key a)) l).Sorted (fun a b => key b ≤ key a) := by
  unfold jsSort
  suffices hgen : ∀ (acc : List α), acc.Sorted (fun a b => key b ≤ key a) →
      (l.foldl (fun acc2 x => jsSortInsert (fun a b => decide (key b < key a)) x acc2)
        acc).Sorted (fun a b => key b ≤ key a) from hgen [] (by simp)
  induction l with
  | nil => intro acc h; exact h
  | cons x xs ih =>
    intro acc h
    simp only [List.foldl_cons]
    exact ih _ (jsSortInsert_sorted key x acc h)

/-- C4 as amended: search output is sorted by descending final score and
truncated to limit (default 10); equal scores keep the docs-map insertion
order, they are not reordered by id. -/
theorem c4_search_sorted_truncated (e : QueryEngine) (groups : List (List String))
    (query : List Char) (opts : SearchOpts) (now : Int) :
    ((e.search groups query opts now).Sorted fun a b => b.score ≤ a.score) ∧
    (e.search groups query opts now).length ≤ opts.limit.getD 10 := by
  unfold QueryEngine.search
  by_cases hq : tokenize query = []
  · rw [if_pos hq]
    simp
  · rw [if_neg hq]
    constructor
    · exact List.Pairwise.sublist (List.take_sublist _ _) (jsSort_sorted (fun r : SearchResult => r.score) _)
    · exact List.length_take_le _ _

/-- C4 counterexample: both documents score exactly 32069/75000, yet the
result order is b before a (insertion order), not ascending id. -/
theorem c4_counterexample :
    c4results.map SearchResult.id = ["b", "a"] ∧
    c4results.map SearchResult.score = [32069 / 75000, 32069 / 75000] ∧
    ("a" : String) ≠ "b" := by
  have heng : c4engine = ⟨3 / 10, 1 / 10, 95 / 100, 1 / 2,
      [("b", c4entry), ("a", c4entry)],
      [("hello".data, JsNum.num 2)], 2, 2, 0⟩ := by rfl
  have htok : tokenize "hello".data = ["hello".data] := by decide
  have hres : c4results =
      [⟨"b", 32069 / 75000, 1367 / 7500, 1⟩, ⟨"a", 32069 / 75000, 1367 / 7500, 1⟩] := by
    show c4engine.search [] "hello".data { useSynonyms := false } 0 = _
    rw [heng]
    simp only [QueryEngine.search, htok]
    norm_num [scoreDoc, c4entry, jsGet, jsGetD, jsOr0, tagFilterSkips,
      typeFilterSkips, afterFilterSkips, beforeFilterSkips, minImportanceSkips,
      hasSupersededBy, mathPow, mathExp, mathLog, idf, bm25Score, K1, B, DAY_MS,
      jsSort, jsSortInsert, List.filterMap, List.foldl, List.take]
  refine ⟨?_, ?_, by decide⟩
  · rw [hres]
    rfl
  · rw [hres]
    rfl

theorem cc16Bytes_length (s t : CC16) : (cc16Bytes s t).length = 64 := by
  obtain ⟨x0, x1, x2, x3, x4, x5, x6, x7, x8, x9, x10, x11, x12, x13, x14, x15⟩ := s
  obtain ⟨y0, y1, y2, y3, y4, y5, y6, y7, y8, y9, y10, y11, y12, y13, y14, y15⟩ := t
  simp [cc16Bytes, le32]

theorem chacha20Block_length (key nonce : Bytes) (c : Nat) :
    (chacha20Block key nonce c).length = 64 := by
  unfold chacha20Block
  exact cc16Bytes_length _ _

theorem flatten_const_length : ∀ (l : List Bytes), (∀ x ∈ l, x.length = 64) →
    l.flatten.length = 64 * l.length := by
  intro l
  induction l with
  | nil => intro _; simp
  | cons x xs ih =>
    intro h
    simp only [List.flatten_cons, List.length_append, List.length_cons]
    rw [h x (List.mem_cons_self x xs), ih (fun y hy => h y (List.mem_cons_of_mem x hy))]
    ring

theorem chachaKeystream_length (key nonce : Bytes) (len : Nat) :
    (chachaKeystream key nonce len).length = len := by
  unfold chachaKeystream
  rw [List.length_take]
  rw [flatten_const_length _ ?hmem]
  case hmem =>
    intro x hx
    obtain ⟨i, _, rfl⟩ := List.mem_map.mp hx
    exact chacha20Block_length key nonce (1 + i)
  rw [List.length_map, List.length_range]
  exact Nat.min_eq_left (by omega)

theorem xorBytes_cancel : ∀ (a b : Bytes), a.length ≤ b.length →
    xorBytes (xorBytes a b) b = a := by
  intro a
  induction a with
  | nil => intro b _; cases b <;> rfl
  | cons p ps ih =>
    intro b hb
    cases b with
    | nil => simp at hb
    | cons k ks =>
      simp only [xorBytes, List.zipWith_cons_cons, List.cons.injEq]
      constructor
      · show p ^^^ k ^^^ k = p
        rw [Nat.xor_assoc, Nat.xor_self, Nat.xor_zero]
      · exact ih ks (by simpa using hb)

theorem xorBytes_length (a b : Bytes) : (xorBytes a b).length = min a.length b.length := by
  simp [xorBytes]

theorem idealPolyTag_key_inj (k1 k2 n c : Bytes) (h1 : k1.length = k2.length)
    (h : idealPolyTag k1 n c = idealPolyTag k2 n c) : k1 = k2 := by
  unfold idealPolyTag at h
  have h2 := (List.cons.inj h).2
  exact List.append_cancel_right (List.append_cancel_right h2)

/-- C7: for a 32-byte key, decrypt of encrypt returns the plaintext, and
decrypt under any different 32-byte key fails with the integrity error of
decipher.final (the Poly1305 tag is modelled as an ideal MAC). -/
theorem c7_encrypt_roundtrip (pt key key2 nonce : Bytes)
    (hk : key.length = 32) (hk2 : key2.length = 32) (hne : key2 ≠ key) :
    ∃ env, encrypt pt key nonce = .ok env ∧
      decrypt env key = .ok pt ∧
      decrypt env key2 = .error "Unsupported state or unable to authenticate data" := by
  have hks : (chachaKeystream key nonce pt.length).length = pt.length :=
    chachaKeystream_length key nonce pt.length
  set ct := xorBytes pt (chachaKeystream key nonce pt.length) with hct
  have hctlen : ct.length = pt.length := by
    rw [hct, xorBytes_length, hks, Nat.min_self]
  refine ⟨⟨nonce, ct, idealPolyTag key nonce ct⟩, ?_, ?_, ?_⟩
  · unfold encrypt
    rw [if_neg (by omega)]
  · unfold decrypt
    rw [if_neg (by omega), if_neg (by simp)]
    simp only
    rw [hctlen, hct]
    exact congrArg Except.ok (xorBytes_cancel pt _ (by rw [hks]))
  · unfold decrypt
    rw [if_neg (by omega), if_pos ?hbad]
    case hbad =>
      intro habs
      exact hne (idealPolyTag_key_inj key2 key nonce ct (by omega) habs)

/-- C7 witness: a two-byte plaintext under the zero key round-trips, and the
key differing in its first byte is rejected. -/
theorem c7_witness :
    ([104, 105] : Bytes).length = 2 ∧ (List.replicate 32 0 : Bytes).length = 32 ∧
    ((1 : Nat) :: List.replicate 31 0 : Bytes).length = 32 ∧
    ((1 : Nat) :: List.replicate 31 0 : Bytes) ≠ List.replicate 32 0 ∧
    (∃ env, encrypt [104, 105] (List.replicate 32 0) (List.replicate 12 0) = .ok env ∧
      decrypt env (List.replicate 32 0) = .ok [104, 105] ∧
      decrypt env ((1 : Nat) :: List.replicate 31 0) =
        .error "Unsupported state or unable to authenticate data") :=
  ⟨by decide, by decide, by decide, by decide,
    c7_encrypt_roundtrip [104, 105] (List.replicate 32 0)
      ((1 : Nat) :: List.replicate 31 0) (List.replicate 12 0)
      (by decide) (by decide) (by decide)⟩

theorem enumFrom_le_fst {α : Type} : ∀ (l : List α) (n : Nat) (p : Nat × α),
    p ∈ List.enumFrom n l → n ≤ p.1 := by
  intro l
  induction l with
  | nil => intro n p h; simp [List.enumFrom] at h
  | cons x xs ih =>
    intro n p h
    rcases List.mem_cons.mp h with rfl | h2
    · exact Nat.le_refl n
    · exact Nat.le_of_succ_le (ih (n + 1) p h2)

theorem encryptEpisode_none (m : AgentMemory) (ep : Episode) (n1 n2 : Bytes)
    (h : m.encryptionKey = none) : m.encryptEpisode ep n1 n2 = .ok ep := by
  unfold AgentMemory.encryptEpisode
  rw [h]

/-- The per-chunk fold of remember with encryption disabled: it succeeds,
produces exactly one created episode per chunk, and touches no stored
episode outside the supplied id range. -/
theorem rememberFold_none (m : AgentMemory) (opts : RememberOpts) (now : Int)
    (idSupply : Nat → String) (nonceSupply : Nat → Bytes)
    (total : Nat) (sourceId : String) (oldId : String) :
    ∀ (ps : List (Nat × List Char)) (m0 : AgentMemory) (eps0 : List Episode),
      m0.encryptionKey = none →
      jsGet m0.store.episodes oldId = jsGet m.store.episodes oldId →
      (∀ p ∈ ps, idSupply p.1 ≠ oldId) →
      ∃ m1, ps.foldl (rememberStep m opts now idSupply nonceSupply total sourceId)
          (.ok (m0, eps0)) =
        .ok (m1, eps0 ++ ps.map fun p => createEpisode p.2
          { type := opts.type, tags := opts.tags, importance := opts.importance,
            agentId := m.agentId, chunkIndex := p.1, totalChunks := total,
            sourceId := some sourceId,
            supersedes := if p.1 = 0 then opts.supersedes else none }
          now (idSupply p.1)) ∧
        jsGet m1.store.episodes oldId = jsGet m.store.episodes oldId ∧
        m1.encryptionKey = none := by
  intro ps
  induction ps with
  | nil =>
    intro m0 eps0 hkey hget _
    exact ⟨m0, by simp, hget, hkey⟩
  | cons p ps ih =>
    intro m0 eps0 hkey hget hfresh
    simp only [List.foldl_cons]
    rw [show rememberStep m opts now idSupply nonceSupply total sourceId
        (.ok (m0, eps0)) p = _ from rfl]
    simp only [rememberStep]
    rw [encryptEpisode_none m0 _ _ _ hkey]
    set ep := createEpisode p.2
      { type := opts.type, tags := opts.tags, importance := opts.importance,
        agentId := m.agentId, chunkIndex := p.1, totalChunks := total,
        sourceId := some sourceId,
        supersedes := if p.1 = 0 then opts.supersedes else none }
      now (idSupply p.1) with hep
    have hepid : ep.id = idSupply p.1 := by rw [hep]; rfl
    obtain ⟨m1, hfold, hget1, hkey1⟩ := ih
      { m0 with engine := m0.engine.addDocument ep,
                store := (m0.store.saveEpisode ep).addToTagIndex ep }
      (eps0 ++ [ep])
      hkey
      (by
        show jsGet (((m0.store.saveEpisode ep).addToTagIndex ep).episodes) oldId = _
        have h1 : ((m0.store.saveEpisode ep).addToTagIndex ep).episodes =
            (m0.store.saveEpisode ep).episodes := rfl
        rw [h1]
        show jsGet (jsSet m0.store.episodes ep.id ep) oldId = _
        rw [jsGet_set_ne _ _ _ _ (by rw [hepid]; exact (hfresh p (List.mem_cons_self p ps)).symm),
          hget])
      (fun q hq => hfresh q (List.mem_cons_of_mem p hq))
    refine ⟨m1, ?_, hget1, hkey1⟩
    rw [hfold]
    simp [List.append_assoc]

/-- C6: with encryption off, a nonempty chunking, a stored superseded
episode and fresh ids, remember succeeds; the first created episode carries
supersedes equal to the superseded singleton, later chunks carry none, and
the stored old episode gains the new head id in supersededBy exactly
once. -/
theorem c6_supersession_symmetry (m : AgentMemory) (text : List Char)
    (opts : RememberOpts) (now : Int)
    (idSupply : Nat → String) (nonceSupply : Nat → Bytes)
    (oldId : String) (oldEp : Episode) (c0 : List Char) (cs : List (List Char))
    (hkey : m.encryptionKey = none)
    (hch : chunk text { mode := m.chunkMode, maxTokens := m.maxChunkTokens } = some (c0 :: cs))
    (hsup : opts.supersedes = some [oldId])
    (hold : m.store.getEpisode oldId = some oldEp)
    (hid : oldEp.id = oldId)
    (hfresh : ∀ i, idSupply i ≠ oldId)
    (hnotin : idSupply 0 ∉ oldEp.supersededBy.getD []) :
    ∃ (m2 : AgentMemory) (first : Episode) (rest : List Episode),
      m.remember text opts now idSupply nonceSupply = .ok (m2, first :: rest) ∧
      first.supersedes = some [oldId] ∧
      first.id = idSupply 0 ∧
      (∀ ep ∈ rest, ep.supersedes = none) ∧
      ∃ oldEp2, m2.store.getEpisode oldId = some oldEp2 ∧
        first.id ∈ oldEp2.supersededBy.getD [] ∧
        (oldEp2.supersededBy.getD []).count first.id = 1 := by
  obtain ⟨m1, hfold, hget1, hkey1⟩ := rememberFold_none m opts now idSupply nonceSupply
    (c0 :: cs).length (contentHash text) oldId ((c0 :: cs).enum) m [] hkey rfl
    (fun p _ => hfresh p.1)
  have hget2 : m1.store.getEpisode oldId = some oldEp := by
    show jsGet m1.store.episodes oldId = some oldEp
    rw [hget1]; exact hold
  unfold AgentMemory.remember
  rw [hch]
  simp only []
  rw [hfold]
  simp only [List.nil_append, List.enum_cons, List.map_cons, hsup]
  rw [if_pos (show ([oldId] : List String) ≠ [] by simp)]
  simp only [List.foldl_cons, List.foldl_nil, hget2]
  have hfid : (createEpisode c0
      { type := opts.type, tags := opts.tags, importance := opts.importance,
        agentId := m.agentId, chunkIndex := 0, totalChunks := (c0 :: cs).length,
        sourceId := some (contentHash text),
        supersedes := if True then some [oldId] else none }
      now (idSupply 0)).id = idSupply 0 := rfl
  rw [hfid, if_neg hnotin]
  refine ⟨_, _, _, rfl, ?_, ?_, ?_, ?_⟩
  · simp [createEpisode]
  · exact hfid
  · intro ep hep
    obtain ⟨p, hp, rfl⟩ := List.mem_map.mp hep
    have h1 : 1 ≤ p.1 := enumFrom_le_fst cs 1 p hp
    have h0 : ¬ p.1 = 0 := by omega
    simp [createEpisode, h0]
  · refine ⟨{ oldEp with
        supersededBy := some (oldEp.supersededBy.getD [] ++ [idSupply 0]) },
      ?_, ?_, ?_⟩
    · show jsGet (jsSet m1.store.episodes oldEp.id _) oldId = _
      rw [hid, jsGet_set_self]
    · rw [hfid]
      simp
    · rw [hfid]
      simp only [Option.getD_some]
      rw [List.count_append, List.count_eq_zero.mpr hnotin]
      simp

/-- C6 witness: remembering hi over a one-episode store with encryption off
produces the supersession links concretely. -/
theorem c6_witness :
    chunk "hi".data { mode := c6m.chunkMode, maxTokens := c6m.maxChunkTokens } =
      some ("hi".data :: []) ∧
    c6m.encryptionKey = none ∧
    c6m.store.getEpisode "old" = some c6old ∧
    (∃ (m2 : AgentMemory) (first : Episode) (rest : List Episode),
      c6m.remember "hi".data { supersedes := some ["old"] } 0
          (fun _ => "new0") (fun _ => []) = .ok (m2, first :: rest) ∧
      first.supersedes = some ["old"] ∧
      first.id = "new0" ∧
      (∀ ep ∈ rest, ep.supersedes = none) ∧
      ∃ oldEp2, m2.store.getEpisode "old" = some oldEp2 ∧
        first.id ∈ oldEp2.supersededBy.getD [] ∧
        (oldEp2.supersededBy.getD []).count first.id = 1) :=
  ⟨by decide, rfl, rfl,
    c6_supersession_symmetry c6m "hi".data { supersedes := some ["old"] } 0
      (fun _ => "new0") (fun _ => []) "old" c6old "hi".data [] rfl (by decide)
      rfl rfl rfl (fun _ => (by decide : ("new0" : String) ≠ "old")) (by simp [c6old])⟩

/-- C9 as amended: the constructor neither clamps recencyWeight into the
unit interval nor reports an error — every configured rational value is
stored (and later used by search) verbatim. -/
theorem c9_recency_weight_unclamped (w : ℚ) :
    (QueryEngine.create { recencyWeight := some w }).recencyWeight = w := rfl

set_option maxRecDepth 40000 in
/-- The embedded compression function reproduces the FIPS 180-4 test vector
for the message abc, byte for byte. -/
theorem sha256_abc_vector :
    sha256 [97, 98, 99] =
      [186, 120, 22, 191, 143, 1, 207, 234, 65, 65, 64, 222, 93, 174, 34, 35,
       176, 3, 97, 163, 150, 23, 122, 156, 180, 16, 255, 97, 242, 0, 21, 173] := by
  decide

end Engram
